import Mathlib

/-!
# Concurrent stock server: the ledger, its commands and its snapshot file

A shallow embedding of `task1/stockserver.c` (multiplexed loop) and
`task2/stockserver.c` (worker pool), and theorems about it.

Conventions of the embedding

* A C `int` is an `Int`; every arithmetic result stored in an `int` field is
  reduced by `wrap32` to the two's complement range `[INT_MIN, INT_MAX]`.
  Index arithmetic over the record array (`start`, `end`, `mid`) is exact.
* A C string is the `List Char` of its characters before the terminator.
* A possibly null `STOCK_ITEM*` is a `stock_link`: `NULL`, or `ptr` to an item
  together with the two links stored in it.  A store through a pointer found
  by the search loop is modelled by rebuilding the tree along the search path.
* A `sem_t` is the natural number it holds; `P` on zero does not return.
* A function that may not return a defined result (a blocked `P`, a loop that
  runs out of fuel, a `strcat` past the end of its buffer) returns `Option`.
* A local variable that the source reads without having initialised it has an
  indeterminate value, which is a parameter of the function.
* The C library is modelled as far as it is used: `%d` and `%s` of `scanf`
  and `printf`, `strcat` with the size of its destination, and `qsort` as the
  merge sort of the GNU C library, which consults only the sign of the
  comparator.
* `MAXLINE` comes from a header that is not among the sources; it is a
  parameter wherever the size of a buffer matters.
-/

namespace StockServer

/-! ## Machine integers -/

/-- Least value of a C `int`. -/
def INT_MIN : Int := -2147483648

/-- Greatest value of a C `int`. -/
def INT_MAX : Int := 2147483647

/-- Two's complement reduction of an exact result to 32 bits. -/
def wrap32 (x : Int) : Int := (x + 2147483648) % 4294967296 - 2147483648

/-- The values an `int` variable can hold. -/
def is_int (x : Int) : Prop := INT_MIN ≤ x ∧ x ≤ INT_MAX

instance (x : Int) : Decidable (is_int x) := by unfold is_int; infer_instance

/-! ## Data model -/

/-- The scalar fields of `struct stock_item`; the links `left` and `right` are
carried by `stock_link`, and `next` is used by the temporary list only. -/
structure STOCK_ITEM where
  stock_id : Int
  left_stock : Int
  stock_price : Int
  stock_readcnt : Int
  mutex : Nat
  writer : Nat
deriving DecidableEq, Repr

/-- A `stock_link` (`STOCK_ITEM*`): null, or a pointer to an item of the tree
with the contents of its `left` and `right` links. -/
inductive stock_link where
  | NULL : stock_link
  | ptr (item : STOCK_ITEM) (left right : stock_link) : stock_link
deriving DecidableEq, Repr

/-- What `stock_add_to_list` and the array copy keep of an item: the three
fields they assign. -/
structure stock_row where
  stock_id : Int
  left_stock : Int
  stock_price : Int
deriving DecidableEq, Repr

/-! ## Response lines -/

/-- The line sent when the search loop ends on a null pointer. -/
def MSG_NOT_EXISTS : List Char := "stock_id not exists\n".toList

/-- The line sent by a buy whose check passed. -/
def MSG_BUY_SUCCESS : List Char := "[buy] success\n".toList

/-- The line sent by a buy whose check failed. -/
def MSG_NOT_ENOUGH : List Char := "Not enough left stocks\n".toList

/-- The line sent by a sell. -/
def MSG_SELL_SUCCESS : List Char := "[sell] success\n".toList

/-- The line sent for an unknown verb. -/
def MSG_INVALID : List Char := "invalid command\n".toList

/-! ## The search loop shared by `buy` and `sell` -/

/-- The `while (ptr)` loop at the head of `buy` and `sell`: the item the loop
stops at, or `none` when it ends with `ptr == NULL`. -/
def search : stock_link → Int → Option STOCK_ITEM
  | stock_link.NULL, _ => none
  | stock_link.ptr item left right, stock_id =>
    if item.stock_id = stock_id then some item
    else if stock_id < item.stock_id then search left stock_id
    else search right stock_id

/-- The quantity of the record the search loop reaches for `stock_id`. -/
def quantity (root : stock_link) (stock_id : Int) : Option Int :=
  (search root stock_id).map STOCK_ITEM.left_stock

/-! ## task1: the commands without locking -/

namespace task1

/-- The function `buy` of task1: the response written to `fd` and the tree
afterwards. -/
def buy : stock_link → Int → Int → List Char × stock_link
  | stock_link.NULL, _, _ => (MSG_NOT_EXISTS, stock_link.NULL)
  | stock_link.ptr item left right, stock_id, stock_num =>
    if item.stock_id = stock_id then
      if item.left_stock ≥ stock_num then
        (MSG_BUY_SUCCESS,
          stock_link.ptr { item with left_stock := wrap32 (item.left_stock - stock_num) }
            left right)
      else
        (MSG_NOT_ENOUGH, stock_link.ptr item left right)
    else if stock_id < item.stock_id then
      let res := buy left stock_id stock_num
      (res.1, stock_link.ptr item res.2 right)
    else
      let res := buy right stock_id stock_num
      (res.1, stock_link.ptr item left res.2)

/-- The function `sell` of task1: the response written to `fd` and the tree
afterwards. -/
def sell : stock_link → Int → Int → List Char × stock_link
  | stock_link.NULL, _, _ => (MSG_NOT_EXISTS, stock_link.NULL)
  | stock_link.ptr item left right, stock_id, stock_num =>
    if item.stock_id = stock_id then
      (MSG_SELL_SUCCESS,
        stock_link.ptr { item with left_stock := wrap32 (item.left_stock + stock_num) }
          left right)
    else if stock_id < item.stock_id then
      let res := sell left stock_id stock_num
      (res.1, stock_link.ptr item res.2 right)
    else
      let res := sell right stock_id stock_num
      (res.1, stock_link.ptr item left res.2)

end task1

/-! ## task2: the commands under the per-record gates -/

namespace task2

/-- The semaphore operation `P`: `none` when the caller would block. -/
def P (s : Nat) : Option Nat := if s = 0 then none else some (s - 1)

/-- The semaphore operation `V`. -/
def V (s : Nat) : Nat := s + 1

/-- The function `buy` of task2, run by one thread alone: `none` when it blocks
on the writer gate. -/
def buy : stock_link → Int → Int → Option (List Char × stock_link)
  | stock_link.NULL, _, _ => some (MSG_NOT_EXISTS, stock_link.NULL)
  | stock_link.ptr item left right, stock_id, stock_num =>
    if item.stock_id = stock_id then
      match P item.writer with
      | none => none
      | some w =>
        if item.left_stock ≥ stock_num then
          some (MSG_BUY_SUCCESS,
            stock_link.ptr
              { item with left_stock := wrap32 (item.left_stock - stock_num), writer := V w }
              left right)
        else
          some (MSG_NOT_ENOUGH, stock_link.ptr { item with writer := V w } left right)
    else if stock_id < item.stock_id then
      (buy left stock_id stock_num).map fun res => (res.1, stock_link.ptr item res.2 right)
    else
      (buy right stock_id stock_num).map fun res => (res.1, stock_link.ptr item left res.2)

/-- The function `sell` of task2, run by one thread alone: `none` when it
blocks on the writer gate. -/
def sell : stock_link → Int → Int → Option (List Char × stock_link)
  | stock_link.NULL, _, _ => some (MSG_NOT_EXISTS, stock_link.NULL)
  | stock_link.ptr item left right, stock_id, stock_num =>
    if item.stock_id = stock_id then
      match P item.writer with
      | none => none
      | some w =>
        some (MSG_SELL_SUCCESS,
          stock_link.ptr
            { item with left_stock := wrap32 (item.left_stock + stock_num), writer := V w }
            left right)
    else if stock_id < item.stock_id then
      (sell left stock_id stock_num).map fun res => (res.1, stock_link.ptr item res.2 right)
    else
      (sell right stock_id stock_num).map fun res => (res.1, stock_link.ptr item left res.2)

end task2

/-- Every record of the tree is as `stock_arr_to_bst` initialises it and as
every completed operation leaves it: no reader inside, both gates free. -/
def Quiescent : stock_link → Prop
  | stock_link.NULL => True
  | stock_link.ptr item left right =>
    (item.stock_readcnt = 0 ∧ item.mutex = 1 ∧ item.writer = 1) ∧ Quiescent left ∧ Quiescent right

/-! ## Sequences of commands on one record -/

/-- A buy or a sell of an amount, the record id being fixed by the context. -/
inductive record_cmd where
  | buy (stock_num : Int) : record_cmd
  | sell (stock_num : Int) : record_cmd
deriving DecidableEq, Repr

/-- Sum of the amounts of the sells of a sequence. -/
def sold_total : List record_cmd → Int
  | [] => 0
  | record_cmd.buy _ :: cs => sold_total cs
  | record_cmd.sell n :: cs => n + sold_total cs

/-- Sum of the amounts of the buys of a sequence that were answered with
the success line, the answers being listed in the order of the commands. -/
def bought_total : List record_cmd → List (List Char) → Int
  | record_cmd.buy n :: cs, resp :: rs =>
    (if resp = MSG_BUY_SUCCESS then n else 0) + bought_total cs rs
  | record_cmd.sell _ :: cs, _ :: rs => bought_total cs rs
  | _, _ => 0

namespace task1

/-- One command of a sequence, applied to the record `stock_id`. -/
def apply_cmd (root : stock_link) (stock_id : Int) : record_cmd → List Char × stock_link
  | record_cmd.buy n => buy root stock_id n
  | record_cmd.sell n => sell root stock_id n

/-- A sequence of commands applied one after the other to the record
`stock_id`: the responses in order and the final tree. -/
def run_cmds (root : stock_link) (stock_id : Int) :
    List record_cmd → List (List Char) × stock_link
  | [] => ([], root)
  | c :: cs =>
    let res := apply_cmd root stock_id c
    let rest := run_cmds res.2 stock_id cs
    (res.1 :: rest.1, rest.2)

end task1

namespace task2

/-- One command of a sequence, applied to the record `stock_id`. -/
def apply_cmd (root : stock_link) (stock_id : Int) :
    record_cmd → Option (List Char × stock_link)
  | record_cmd.buy n => buy root stock_id n
  | record_cmd.sell n => sell root stock_id n

/-- A sequence of commands applied one after the other by one thread to the
record `stock_id`; `none` when one of them blocks. -/
def run_cmds (root : stock_link) (stock_id : Int) :
    List record_cmd → Option (List (List Char) × stock_link)
  | [] => some ([], root)
  | c :: cs =>
    match apply_cmd root stock_id c with
    | none => none
    | some res =>
      match run_cmds res.2 stock_id cs with
      | none => none
      | some rest => some (res.1 :: rest.1, rest.2)

end task2

/-! ## Example ledgers -/

/-- An item as `stock_arr_to_bst` allocates and initialises it: the three
copied fields, no reader, both semaphores at 1. -/
def new_item (stock_id left_stock stock_price : Int) : STOCK_ITEM :=
  { stock_id := stock_id, left_stock := left_stock, stock_price := stock_price,
    stock_readcnt := 0, mutex := 1, writer := 1 }

/-- A ledger of one record, with the given id, quantity and price. -/
def single_ledger (stock_id left_stock stock_price : Int) : stock_link :=
  stock_link.ptr (new_item stock_id left_stock stock_price) stock_link.NULL stock_link.NULL

/-- The ledger of records `1 q 100` and `2 5 50`, in the shape
`stock_arr_to_bst` gives two records. -/
def two_ledger (q : Int) : stock_link :=
  stock_link.ptr (new_item 1 q 100) stock_link.NULL (single_ledger 2 5 50)

/-! ## Formatted input and output

The conversions `%d` and `%s` of the C library, as far as the programs use
them.  A `%d` that reads a number outside the `int` range stores its value
reduced to 32 bits. -/

/-- The C library `isspace` in the "C" locale. -/
def isspace (c : Char) : Bool :=
  c = ' ' || c = '\t' || c = '\n' || c = '\x0b' || c = '\x0c' || c = '\r'

/-- The C library `isdigit`. -/
def isdigit (c : Char) : Bool := 48 ≤ c.toNat && c.toNat ≤ 57

/-- The character of a decimal digit. -/
def digit_char (d : Nat) : Char := Char.ofNat (48 + d)

/-- Decimal digits of `n` pushed in front of `acc`, least significant first;
the first argument bounds the number of digits. -/
def print_nat_loop : Nat → Nat → List Char → List Char
  | 0, _, acc => acc
  | fuel + 1, n, acc =>
    if n < 10 then digit_char n :: acc
    else print_nat_loop fuel (n / 10) (digit_char (n % 10) :: acc)

/-- Decimal digits of a natural number, most significant first. -/
def print_nat (n : Nat) : List Char := print_nat_loop (n + 1) n []

/-- What `%d` prints for an `int`. -/
def print_d (x : Int) : List Char :=
  if x < 0 then '-' :: print_nat x.natAbs else print_nat x.natAbs

/-- White space skipped at the head of the input. -/
def skip_space : List Char → List Char
  | [] => []
  | c :: cs => if isspace c then skip_space cs else c :: cs

/-- The longest run of decimal digits at the head of the input, accumulated
onto `acc`, and the input left. -/
def scan_digits : List Char → Nat → Nat × List Char
  | [], acc => (acc, [])
  | c :: cs, acc =>
    if isdigit c then scan_digits cs (10 * acc + (c.toNat - 48)) else (acc, c :: cs)

/-- Outcome of one conversion: the input ended before any character of the
item, the item does not match, or a value was converted. Each carries the
input left. -/
inductive scan_result where
  | input_failure : scan_result
  | matching_failure (rest : List Char) : scan_result
  | converted (value : Int) (rest : List Char) : scan_result
deriving DecidableEq, Repr

/-- The digits of a `%d` item after its optional sign. -/
def scan_number (negative : Bool) : List Char → scan_result
  | [] => scan_result.matching_failure []
  | d :: ds =>
    if isdigit d then
      let r := scan_digits (d :: ds) 0
      scan_result.converted (wrap32 (if negative then -(r.1 : Int) else (r.1 : Int))) r.2
    else scan_result.matching_failure (d :: ds)

/-- The conversion `%d`: skip white space, read an optional sign and digits. -/
def scan_d (s : List Char) : scan_result :=
  match skip_space s with
  | [] => scan_result.input_failure
  | c :: cs =>
    if c = '-' then scan_number true cs
    else if c = '+' then scan_number false cs
    else scan_number false (c :: cs)

/-- The characters of a `%s` item: up to the next white space. -/
def take_word : List Char → List Char
  | [] => []
  | c :: cs => if isspace c then [] else c :: take_word cs

/-- The input left after a `%s` item. -/
def drop_word : List Char → List Char
  | [] => []
  | c :: cs => if isspace c then c :: cs else drop_word cs

/-- The value `EOF` returned by `fscanf`. -/
def EOF : Int := -1

/-- The call `fscanf(fp, "%d %d %d", &stock_id, &left_stock, &stock_price)`:
the return value, the three variables afterwards (in a `stock_row`), and the
input left in the stream. A variable whose conversion did not happen keeps
its previous value. -/
def fscanf_d_d_d (fp : List Char) (vars : stock_row) : Int × stock_row × List Char :=
  match scan_d fp with
  | scan_result.input_failure => (EOF, vars, [])
  | scan_result.matching_failure rest => (0, vars, rest)
  | scan_result.converted x rest1 =>
    match scan_d (skip_space rest1) with
    | scan_result.input_failure => (1, { vars with stock_id := x }, [])
    | scan_result.matching_failure rest => (1, { vars with stock_id := x }, rest)
    | scan_result.converted y rest2 =>
      match scan_d (skip_space rest2) with
      | scan_result.input_failure =>
        (2, { vars with stock_id := x, left_stock := y }, [])
      | scan_result.matching_failure rest =>
        (2, { vars with stock_id := x, left_stock := y }, rest)
      | scan_result.converted z rest3 =>
        (3, { stock_id := x, left_stock := y, stock_price := z }, rest3)

/-! ## Loading the snapshot and building the index

These functions are the same text in task1 and task2. -/

/-- The globals `total_stock_num`, the temporary list from `stock_head` to
`stock_tail`, and `root`. -/
structure globals where
  total_stock_num : Nat
  stock_list : List stock_row
  root : stock_link
deriving DecidableEq, Repr

/-- The globals as the program starts: no record counted, empty list, null
root. -/
def initial_globals : globals :=
  { total_stock_num := 0, stock_list := [], root := stock_link.NULL }

/-- The function `stock_add_to_list`: count the record and append it. -/
def stock_add_to_list (g : globals) (stock_id left_stock stock_price : Int) : globals :=
  { g with
    total_stock_num := g.total_stock_num + 1,
    stock_list := g.stock_list ++
      [{ stock_id := stock_id, left_stock := left_stock, stock_price := stock_price }] }

/-- The comparator `less` handed to `qsort`: the difference of the ids, as an
`int`. -/
def less (a b : stock_row) : Int := wrap32 (a.stock_id - b.stock_id)

/-- The merging loop of the C library `qsort`: while both runs hold elements,
the head of the first run is taken when the comparator says it is not greater
than the head of the second, the head of the second otherwise; what is left of
either run follows. The fuel bounds the number of elements taken and is the
number of elements of both runs. -/
def msort_merge (compar : stock_row → stock_row → Int) :
    Nat → List stock_row → List stock_row → List stock_row
  | 0, b1, b2 => b1 ++ b2
  | _ + 1, [], b2 => b2
  | _ + 1, x :: b1, [] => x :: b1
  | fuel + 1, x :: b1, y :: b2 =>
    if compar x y ≤ 0 then x :: msort_merge compar fuel b1 (y :: b2)
    else y :: msort_merge compar fuel (x :: b1) b2

/-- The recursion of the C library `qsort`, the merge sort `msort_with_tmp` of
the GNU C library: an array of at most one element is left as it is; otherwise
the first `n / 2` elements and the remaining ones are sorted and merged.
Structural on a bound of the depth of the recursion. -/
def msort_with_tmp (compar : stock_row → stock_row → Int) :
    Nat → List stock_row → List stock_row
  | 0, b => b
  | depth + 1, b =>
    if b.length ≤ 1 then b
    else
      msort_merge compar b.length
        (msort_with_tmp compar depth (b.take (b.length / 2)))
        (msort_with_tmp compar depth (b.drop (b.length / 2)))

/-- The C library `qsort`, which consults only the sign of the comparator. -/
def qsort (compar : stock_row → stock_row → Int) (b : List stock_row) : List stock_row :=
  msort_with_tmp compar b.length b

/-- The array element `stock_arr[i]`; reads outside the array do not occur
when `stock_arr_to_bst` is called on `0` and `length - 1`, and yield a zero
row here. -/
def arr_get (stock_arr : List stock_row) (i : Int) : stock_row :=
  if 0 ≤ i then stock_arr.getD i.toNat { stock_id := 0, left_stock := 0, stock_price := 0 }
  else { stock_id := 0, left_stock := 0, stock_price := 0 }

/-- The recursion of `stock_arr_to_bst`, structural on a bound of its depth. -/
def stock_arr_to_bst_depth : Nat → List stock_row → Int → Int → stock_link
  | 0, _, _, _ => stock_link.NULL
  | depth + 1, stock_arr, start, end_ =>
    if start > end_ then stock_link.NULL
    else
      stock_link.ptr
        (new_item (arr_get stock_arr ((start + end_).tdiv 2)).stock_id
          (arr_get stock_arr ((start + end_).tdiv 2)).left_stock
          (arr_get stock_arr ((start + end_).tdiv 2)).stock_price)
        (stock_arr_to_bst_depth depth stock_arr start ((start + end_).tdiv 2 - 1))
        (stock_arr_to_bst_depth depth stock_arr ((start + end_).tdiv 2 + 1) end_)

/-- The function `stock_arr_to_bst`: the middle element becomes the root, the
two halves its subtrees. The number of elements of the range bounds the depth
of the recursion; `stock_arr_to_bst_eq` is the equation of the source. -/
def stock_arr_to_bst (stock_arr : List stock_row) (start end_ : Int) : stock_link :=
  stock_arr_to_bst_depth (end_ - start + 1).toNat stock_arr start end_

/-- The function `stock_list_to_bst`: copy `total_stock_num` items of the list
into an array, sort it with `less`, build the tree, and empty the list.
`none` when the list holds fewer items than are counted. -/
def stock_list_to_bst (g : globals) : Option globals :=
  if g.total_stock_num ≤ g.stock_list.length then
    some { g with
      stock_list := [],
      root := stock_arr_to_bst (qsort less (g.stock_list.take g.total_stock_num)) 0
        ((g.total_stock_num : Int) - 1) }
  else none

/-- The `while (1)` loop of `load_stock_to_memory`; `none` when the fuel does
not suffice for it to reach `res == EOF`. -/
def load_loop : Nat → globals → stock_row → List Char → Option globals
  | 0, _, _, _ => none
  | fuel + 1, g, vars, fp =>
    let r := fscanf_d_d_d fp vars
    if r.1 = EOF then some g
    else
      load_loop fuel
        (stock_add_to_list g r.2.1.stock_id r.2.1.left_stock r.2.1.stock_price) r.2.1 r.2.2

/-- The function `load_stock_to_memory` on the text of `stock.txt`; `vars`
holds the indeterminate initial values of its three local variables. -/
def load_stock_to_memory (fuel : Nat) (g : globals) (vars : stock_row) (fp : List Char) :
    Option globals :=
  match load_loop fuel g vars fp with
  | none => none
  | some g1 => stock_list_to_bst g1

/-! ## Traversals: `show` and the snapshot file

`MAXLINE` is the size of the buffer `stocks` of `show`; the header that
defines it is not part of the sources, so it is a parameter. -/

/-- What `sprintf(temp, "%d %d %d\t", ...)` puts in `temp` for an item; three
`int`s take at most 36 of the 100 bytes of `temp`. -/
def sprintf_item (item : STOCK_ITEM) : List Char :=
  print_d item.stock_id ++ ' ' :: (print_d item.left_stock ++ ' ' ::
    (print_d item.stock_price ++ ['\t']))

/-- What `fprintf(fp, "%d %d %d\n", ...)` writes for an item. -/
def fprintf_item (item : STOCK_ITEM) : List Char :=
  print_d item.stock_id ++ ' ' :: (print_d item.left_stock ++ ' ' ::
    (print_d item.stock_price ++ ['\n']))

/-- The C library `strcat` into a buffer of `size` bytes: `none` when the
result and its terminator do not fit. -/
def strcat (size : Nat) (dest src : List Char) : Option (List Char) :=
  if dest.length + src.length + 1 ≤ size then some (dest ++ src) else none

namespace task1

/-- The function `inorder` of task1: the contents of `stocks` afterwards. -/
def inorder (MAXLINE : Nat) : List Char → stock_link → Option (List Char)
  | stocks, stock_link.NULL => some stocks
  | stocks, stock_link.ptr item left right =>
    match inorder MAXLINE stocks left with
    | none => none
    | some s1 =>
      match strcat MAXLINE s1 (sprintf_item item) with
      | none => none
      | some s2 => inorder MAXLINE s2 right

/-- The function `show` of task1: the bytes written to `fd`. -/
def show_ (MAXLINE : Nat) (root : stock_link) : Option (List Char) :=
  match inorder MAXLINE [] root with
  | none => none
  | some stocks => strcat MAXLINE stocks ['\n']

/-- The function `inorder_print` of task1: the contents of the file after the
traversal has appended to `fp`. -/
def inorder_print : stock_link → List Char → List Char
  | stock_link.NULL, fp => fp
  | stock_link.ptr item left right, fp =>
    inorder_print right (inorder_print left fp ++ fprintf_item item)

/-- The function `update_file` of task1: the new contents of `stock.txt`. -/
def update_file (root : stock_link) : List Char := inorder_print root []

end task1

namespace task2

/-- Entry of a reader into a record: `P(mutex); readcnt++; if (readcnt == 1)
P(writer); V(mutex)`. `none` when a `P` blocks. -/
def reader_enter (item : STOCK_ITEM) : Option STOCK_ITEM :=
  match P item.mutex with
  | none => none
  | some m =>
    let cnt := wrap32 (item.stock_readcnt + 1)
    if cnt = 1 then
      match P item.writer with
      | none => none
      | some w => some { item with stock_readcnt := cnt, mutex := V m, writer := w }
    else some { item with stock_readcnt := cnt, mutex := V m }

/-- Exit of a reader from a record: `P(mutex); readcnt--; if (readcnt == 0)
V(writer); V(mutex)`. `none` when the `P` blocks. -/
def reader_exit (item : STOCK_ITEM) : Option STOCK_ITEM :=
  match P item.mutex with
  | none => none
  | some m =>
    let cnt := wrap32 (item.stock_readcnt - 1)
    if cnt = 0 then some { item with stock_readcnt := cnt, mutex := V m, writer := V item.writer }
    else some { item with stock_readcnt := cnt, mutex := V m }

/-- The function `inorder` of task2, run by one thread alone: the contents of
`stocks` and the tree afterwards. -/
def inorder (MAXLINE : Nat) : List Char → stock_link → Option (List Char × stock_link)
  | stocks, stock_link.NULL => some (stocks, stock_link.NULL)
  | stocks, stock_link.ptr item left right =>
    match inorder MAXLINE stocks left with
    | none => none
    | some (s1, left1) =>
      match reader_enter item with
      | none => none
      | some item1 =>
        match strcat MAXLINE s1 (sprintf_item item1) with
        | none => none
        | some s2 =>
          match reader_exit item1 with
          | none => none
          | some item2 =>
            match inorder MAXLINE s2 right with
            | none => none
            | some (s3, right1) => some (s3, stock_link.ptr item2 left1 right1)

/-- The function `show` of task2: the bytes written to `fd` and the tree
afterwards. -/
def show_ (MAXLINE : Nat) (root : stock_link) : Option (List Char × stock_link) :=
  match inorder MAXLINE [] root with
  | none => none
  | some (stocks, root1) =>
    match strcat MAXLINE stocks ['\n'] with
    | none => none
    | some out => some (out, root1)

/-- The function `inorder_print` of task2, run by one thread alone: the
contents of the file and the tree afterwards. -/
def inorder_print : stock_link → List Char → Option (List Char × stock_link)
  | stock_link.NULL, fp => some (fp, stock_link.NULL)
  | stock_link.ptr item left right, fp =>
    match inorder_print left fp with
    | none => none
    | some (fp1, left1) =>
      match reader_enter item with
      | none => none
      | some item1 =>
        match reader_exit item1 with
        | none => none
        | some item2 =>
          match inorder_print right (fp1 ++ fprintf_item item1) with
          | none => none
          | some (fp2, right1) => some (fp2, stock_link.ptr item2 left1 right1)

/-- The function `update_file` of task2 under the semaphore `file_mutex`: the
semaphore, the new contents of `stock.txt` and the tree afterwards. -/
def update_file (file_mutex : Nat) (root : stock_link) :
    Option (Nat × List Char × stock_link) :=
  match P file_mutex with
  | none => none
  | some m =>
    match inorder_print root [] with
    | none => none
    | some (fp, root1) => some (V m, fp, root1)

end task2

/-! ## The command interpreter -/

/-- The local variables `order`, `stock_id` and `stock_num` of
`execute_command`. They are not initialised: their values before `sscanf` are
indeterminate and are a parameter of `execute_command`. -/
structure command_vars where
  order : List Char
  stock_id : Int
  stock_num : Int
deriving DecidableEq, Repr

/-- The call `sscanf(command, "%s %d %d", order, &stock_id, &stock_num)`:
the variables afterwards. A variable whose conversion did not happen keeps
its previous value. -/
def sscanf_s_d_d (command : List Char) (vars : command_vars) : command_vars :=
  match skip_space command with
  | [] => vars
  | c :: cs =>
    match scan_d (skip_space (drop_word (c :: cs))) with
    | scan_result.converted x rest1 =>
      match scan_d (skip_space rest1) with
      | scan_result.converted y _ =>
        { order := take_word (c :: cs), stock_id := x, stock_num := y }
      | _ => { vars with order := take_word (c :: cs), stock_id := x }
    | _ => { vars with order := take_word (c :: cs) }

namespace task1

/-- The function `execute_command` of task1: the bytes written to `fd` and the
tree afterwards; `none` when `show` overruns its buffer. -/
def execute_command (MAXLINE : Nat) (vars : command_vars) (root : stock_link)
    (command : List Char) : Option (List Char × stock_link) :=
  let v := sscanf_s_d_d command vars
  if v.order = "show".toList then
    match show_ MAXLINE root with
    | none => none
    | some out => some (out, root)
  else if v.order = "buy".toList then some (buy root v.stock_id v.stock_num)
  else if v.order = "sell".toList then some (sell root v.stock_id v.stock_num)
  else some (MSG_INVALID, root)

end task1

namespace task2

/-- The function `execute_command` of task2, run by one thread alone; `none`
when `show` overruns its buffer or a `P` blocks. -/
def execute_command (MAXLINE : Nat) (vars : command_vars) (root : stock_link)
    (command : List Char) : Option (List Char × stock_link) :=
  let v := sscanf_s_d_d command vars
  if v.order = "show".toList then show_ MAXLINE root
  else if v.order = "buy".toList then buy root v.stock_id v.stock_num
  else if v.order = "sell".toList then sell root v.stock_id v.stock_num
  else some (MSG_INVALID, root)

end task2

/-! ## Views of a ledger used to state properties -/

/-- The items of the tree in the order of the in-order traversal. -/
def items : stock_link → List STOCK_ITEM
  | stock_link.NULL => []
  | stock_link.ptr item left right => items left ++ item :: items right

/-- The three data fields of an item. -/
def row_of (item : STOCK_ITEM) : stock_row :=
  { stock_id := item.stock_id, left_stock := item.left_stock, stock_price := item.stock_price }

/-- The (id, quantity, price) triples of the tree in the order of the in-order
traversal. -/
def rows (root : stock_link) : List stock_row := (items root).map row_of

/-- The ids of the tree in the order of the in-order traversal. -/
def ids (root : stock_link) : List Int := (items root).map STOCK_ITEM.stock_id

/-- The item `stock_arr_to_bst` makes of an array element. -/
def item_of_row (r : stock_row) : STOCK_ITEM := new_item r.stock_id r.left_stock r.stock_price

/-- The shape of a tree: the same links, every item replaced by one fixed
item. -/
def shape : stock_link → stock_link
  | stock_link.NULL => stock_link.NULL
  | stock_link.ptr _ left right => stock_link.ptr (new_item 0 0 0) (shape left) (shape right)

/-- The three data fields of a row are values of C `int`s. -/
def row_is_int (r : stock_row) : Prop :=
  is_int r.stock_id ∧ is_int r.left_stock ∧ is_int r.stock_price

instance (r : stock_row) : Decidable (row_is_int r) := by unfold row_is_int; infer_instance

/-- A command on the ledger: a verb with its id and amount. -/
inductive ledger_cmd where
  | buy (stock_id stock_num : Int) : ledger_cmd
  | sell (stock_id stock_num : Int) : ledger_cmd
deriving DecidableEq, Repr

namespace task1

/-- A sequence of buy and sell commands applied one after the other: the tree
afterwards. -/
def run_ledger : stock_link → List ledger_cmd → stock_link
  | root, [] => root
  | root, ledger_cmd.buy i n :: cs => run_ledger (buy root i n).2 cs
  | root, ledger_cmd.sell i n :: cs => run_ledger (sell root i n).2 cs

end task1

/-- Every item of the tree holds values of C `int`s in its three data
fields. -/
def fields_are_int : stock_link → Prop
  | stock_link.NULL => True
  | stock_link.ptr item left right =>
    row_is_int (row_of item) ∧ fields_are_int left ∧ fields_are_int right

/-- The input is empty or starts with a character that is not a digit. -/
def no_digit_head (rest : List Char) : Prop :=
  ∀ c cs, rest = c :: cs → isdigit c = false

/-- The order the comparator `less` reports: `a` does not compare greater
than `b`. -/
def le_by_less (a b : stock_row) : Prop := less a b ≤ 0

/-- The text `inorder` appends to `stocks` for a tree: one `sprintf` per item,
in traversal order. -/
def show_text (root : stock_link) : List Char := (items root).flatMap sprintf_item

/-- Rows with the ids `0`, ..., `n - 1`, quantity and price zero. -/
def zero_rows (n : Nat) : List stock_row :=
  (List.range n).map fun (i : Nat) =>
    { stock_id := Int.ofNat i, left_stock := 0, stock_price := 0 }

/-- An id in the range `[-2^30, 2^30 - 1]`: the difference of two such ids is
an `int`, so `less` reports their true order. -/
def close_id (x : Int) : Prop := -1073741824 ≤ x ∧ x ≤ 1073741823

/-- What the handling of one received line leaves: the tree, whether the
ledger was persisted and the connection closed, the contents written to
`stock.txt` if it was, and the bytes written to the connection. -/
structure line_result where
  root : stock_link
  closed : Bool
  file : Option (List Char)
  response : List Char
deriving DecidableEq, Repr

namespace task1

/-- The body of the loop of `main` for a line that `Rio_readlineb` returned
(`n != 0`): the `strncmp` test for `exit`, the test for a blank line, and
`execute_command`. -/
def main_line (MAXLINE : Nat) (vars : command_vars) (root : stock_link)
    (command : List Char) : Option line_result :=
  if command.take 4 = "exit".toList then
    some { root := root, closed := true, file := some (update_file root), response := [] }
  else if command = "\n".toList then
    some { root := root, closed := false, file := none, response := "\n".toList }
  else
    match execute_command MAXLINE vars root command with
    | none => none
    | some (out, root1) =>
      some { root := root1, closed := false, file := none, response := out }

end task1

namespace task2

/-- The body of the inner loop of `thread` for a line that `Rio_readlineb`
returned (`n != 0`), run by one thread alone: the `strcmp` test for `exit`,
the test for a blank line, and `execute_command`. -/
def thread_line (MAXLINE : Nat) (vars : command_vars) (file_mutex : Nat)
    (root : stock_link) (command : List Char) : Option line_result :=
  if command = "exit\n".toList then
    match update_file file_mutex root with
    | none => none
    | some (_, fp, root1) =>
      some { root := root1, closed := true, file := some fp, response := "exit\n".toList }
  else if command = "\n".toList then
    some { root := root, closed := false, file := none, response := "\n".toList }
  else
    match execute_command MAXLINE vars root command with
    | none => none
    | some (out, root1) =>
      some { root := root1, closed := false, file := none, response := out }

end task2

/-! ## The connection queue of the worker pool -/


/-- The fields of `sbuf_t`: the array `buf` of `n` slots, the indices `front`
and `rear`, and the three semaphores. -/
structure sbuf_t where
  buf : List Int
  n : Int
  front : Int
  rear : Int
  mutex : Nat
  slots : Nat
  items : Nat
deriving DecidableEq, Repr

/-- A call on the connection queue. -/
inductive sbuf_op where
  | insert (item : Int) : sbuf_op
  | remove : sbuf_op
deriving DecidableEq, Repr

namespace task2

/-- The function `sbuf_init`: `n` zeroed slots, both indices 0, `mutex` at 1,
`slots` at `n`, `items` at 0. -/
def sbuf_init (n : Int) : sbuf_t :=
  { buf := List.replicate n.toNat 0, n := n, front := 0, rear := 0,
    mutex := 1, slots := n.toNat, items := 0 }

/-- The subscript `i % n` of `buf` as C computes it (the remainder has the sign
of `i`); `none` when `n` is 0 or the subscript falls outside the array. -/
def buf_index (sp : sbuf_t) (i : Int) : Option Nat :=
  if sp.n = 0 then none
  else if 0 ≤ Int.tmod i sp.n ∧ (Int.tmod i sp.n).toNat < sp.buf.length then
    some (Int.tmod i sp.n).toNat
  else none

/-- The function `sbuf_insert`, run by one thread alone; `none` when a `P`
blocks or the subscript falls outside `buf`. -/
def sbuf_insert (sp : sbuf_t) (item : Int) : Option sbuf_t :=
  match P sp.slots with
  | none => none
  | some slots1 =>
    match P sp.mutex with
    | none => none
    | some mutex1 =>
      match buf_index sp (wrap32 (sp.rear + 1)) with
      | none => none
      | some k =>
        some { sp with
          buf := sp.buf.set k item, rear := wrap32 (sp.rear + 1),
          mutex := V mutex1, slots := slots1, items := V sp.items }

/-- The function `sbuf_remove`, run by one thread alone: the handle returned
and the queue afterwards; `none` when a `P` blocks or the subscript falls
outside `buf`. -/
def sbuf_remove (sp : sbuf_t) : Option (Int × sbuf_t) :=
  match P sp.items with
  | none => none
  | some items1 =>
    match P sp.mutex with
    | none => none
    | some mutex1 =>
      match buf_index sp (wrap32 (sp.front + 1)) with
      | none => none
      | some k =>
        some (sp.buf.getD k 0,
          { sp with
            front := wrap32 (sp.front + 1),
            mutex := V mutex1, slots := V sp.slots, items := items1 })

/-- A sequence of calls run one after the other: the handles the removes
returned, in order, and the queue afterwards. -/
def sbuf_run : sbuf_t → List sbuf_op → Option (List Int × sbuf_t)
  | sp, [] => some ([], sp)
  | sp, sbuf_op.insert item :: ops =>
    match sbuf_insert sp item with
    | none => none
    | some sp1 => sbuf_run sp1 ops
  | sp, sbuf_op.remove :: ops =>
    match sbuf_remove sp with
    | none => none
    | some (item, sp1) =>
      match sbuf_run sp1 ops with
      | none => none
      | some (outs, sp2) => some (item :: outs, sp2)

/-- Every insert of the sequence starts with the `slots` count positive and
every remove with the `items` count positive. -/
def guarded : sbuf_t → List sbuf_op → Bool
  | _, [] => true
  | sp, sbuf_op.insert item :: ops =>
    decide (0 < sp.slots) &&
      (match sbuf_insert sp item with
       | none => true
       | some sp1 => guarded sp1 ops)
  | sp, sbuf_op.remove :: ops =>
    decide (0 < sp.items) &&
      (match sbuf_remove sp with
       | none => true
       | some (_, sp1) => guarded sp1 ops)

end task2

/-- The queue as the specification describes it, a first-in first-out list of
pending handles: the handles the removes of a sequence return, and the handles
left pending. A remove on an empty list returns nothing. -/
def fifo_run : List Int → List sbuf_op → List Int × List Int
  | pending, [] => ([], pending)
  | pending, sbuf_op.insert item :: ops => fifo_run (pending ++ [item]) ops
  | [], sbuf_op.remove :: ops => fifo_run [] ops
  | item :: pending, sbuf_op.remove :: ops =>
    (item :: (fifo_run pending ops).1, (fifo_run pending ops).2)

/-- The sequence insert, remove repeated `k` times with the same handle. -/
def insert_remove_pairs : Nat → Int → List sbuf_op
  | 0, _ => []
  | k + 1, item =>
    sbuf_op.insert item :: sbuf_op.remove :: insert_remove_pairs k item

/-- The handles inserted by a sequence of calls, in order. -/
def inserted : List sbuf_op → List Int
  | [] => []
  | sbuf_op.insert item :: ops => item :: inserted ops
  | sbuf_op.remove :: ops => inserted ops


/-- The state of the queue that holds the pending handles `pending` in a
buffer of `N` slots, the indices not having passed `INT_MAX`. -/
def sbuf_inv (N : Nat) (pending : List Int) (sp : sbuf_t) : Prop :=
  sp.n = N ∧ sp.buf.length = N ∧ sp.mutex = 1 ∧ 0 ≤ sp.front ∧ sp.rear ≤ INT_MAX
    ∧ sp.rear - sp.front = pending.length ∧ sp.items = pending.length
    ∧ sp.slots + sp.items = N
    ∧ ∀ j, j < pending.length → sp.buf[(sp.front.toNat + 1 + j) % N]? = pending[j]?

/-! ### The reader and writer protocols on one record -/

/-- Where a thread stands in the protocols on one record: outside, at one of
the points of the reader protocol of `inorder` and `inorder_print`, or inside
the writing section of `buy` and `sell`. -/
inductive rw_pc where
  | idle : rw_pc
  | r_has_mutex : rw_pc
  | r_counted : rw_pc
  | r_first : rw_pc
  | r_entering : rw_pc
  | reading : rw_pc
  | r_exit_mutex : rw_pc
  | r_uncounted : rw_pc
  | r_last : rw_pc
  | r_leaving : rw_pc
  | writing : rw_pc
deriving DecidableEq, Repr

/-- The lock fields of one record and the place of every thread. -/
structure rw_state where
  mutex : Nat
  writer : Nat
  stock_readcnt : Int
  pcs : List rw_pc
deriving DecidableEq, Repr

namespace task2

/-- The record as `stock_arr_to_bst` leaves it, with `n` threads outside. -/
def rw_init (n : Nat) : rw_state :=
  { mutex := 1, writer := 1, stock_readcnt := 0, pcs := List.replicate n rw_pc.idle }

/-- One atomic step of thread `i`; an idle thread starts the writer protocol
when `as_writer` is set and the reader protocol otherwise. `none` when the
thread does not exist or its `P` blocks. -/
def rw_step (s : rw_state) (i : Nat) (as_writer : Bool) : Option rw_state :=
  match s.pcs[i]? with
  | none => none
  | some rw_pc.idle =>
    if as_writer then
      match P s.writer with
      | none => none
      | some w => some { s with writer := w, pcs := s.pcs.set i rw_pc.writing }
    else
      match P s.mutex with
      | none => none
      | some m => some { s with mutex := m, pcs := s.pcs.set i rw_pc.r_has_mutex }
  | some rw_pc.r_has_mutex =>
    some { s with stock_readcnt := wrap32 (s.stock_readcnt + 1),
                  pcs := s.pcs.set i rw_pc.r_counted }
  | some rw_pc.r_counted =>
    if s.stock_readcnt = 1 then some { s with pcs := s.pcs.set i rw_pc.r_first }
    else some { s with pcs := s.pcs.set i rw_pc.r_entering }
  | some rw_pc.r_first =>
    match P s.writer with
    | none => none
    | some w => some { s with writer := w, pcs := s.pcs.set i rw_pc.r_entering }
  | some rw_pc.r_entering =>
    some { s with mutex := V s.mutex, pcs := s.pcs.set i rw_pc.reading }
  | some rw_pc.reading =>
    match P s.mutex with
    | none => none
    | some m => some { s with mutex := m, pcs := s.pcs.set i rw_pc.r_exit_mutex }
  | some rw_pc.r_exit_mutex =>
    some { s with stock_readcnt := wrap32 (s.stock_readcnt - 1),
                  pcs := s.pcs.set i rw_pc.r_uncounted }
  | some rw_pc.r_uncounted =>
    if s.stock_readcnt = 0 then some { s with pcs := s.pcs.set i rw_pc.r_last }
    else some { s with pcs := s.pcs.set i rw_pc.r_leaving }
  | some rw_pc.r_last =>
    some { s with writer := V s.writer, pcs := s.pcs.set i rw_pc.r_leaving }
  | some rw_pc.r_leaving =>
    some { s with mutex := V s.mutex, pcs := s.pcs.set i rw_pc.idle }
  | some rw_pc.writing =>
    some { s with writer := V s.writer, pcs := s.pcs.set i rw_pc.idle }

/-- The states that `n` threads reach from the initial record by atomic steps
in any order. -/
inductive rw_reachable (n : Nat) : rw_state → Prop where
  | init : rw_reachable n (rw_init n)
  | step (s s1 : rw_state) (i : Nat) (as_writer : Bool) :
      rw_reachable n s → rw_step s i as_writer = some s1 → rw_reachable n s1

/-- A schedule run from a state: each entry names the thread that takes the
next step and what it starts if it is idle. -/
def rw_run : rw_state → List (Nat × Bool) → Option rw_state
  | s, [] => some s
  | s, (i, as_writer) :: rest =>
    match rw_step s i as_writer with
    | none => none
    | some s1 => rw_run s1 rest

end task2

/-- The number of threads at a place. -/
def at_pc (s : rw_state) (a : rw_pc) : Nat := s.pcs.count a

/-- The invariant of the protocols: every thread is at one place; the mutex is
free exactly when no thread stands between its `P` and its `V`; the reader
count is the number of counted readers; the first and the last reader find no
reader inside; and the writer gate is free exactly when no writer is inside and
no reader holds it. -/
def rw_inv (n : Nat) (s : rw_state) : Prop :=
  at_pc s rw_pc.idle + at_pc s rw_pc.r_has_mutex + at_pc s rw_pc.r_counted
      + at_pc s rw_pc.r_first + at_pc s rw_pc.r_entering + at_pc s rw_pc.reading
      + at_pc s rw_pc.r_exit_mutex + at_pc s rw_pc.r_uncounted + at_pc s rw_pc.r_last
      + at_pc s rw_pc.r_leaving + at_pc s rw_pc.writing = n
  ∧ s.mutex + (at_pc s rw_pc.r_has_mutex + at_pc s rw_pc.r_counted + at_pc s rw_pc.r_first
      + at_pc s rw_pc.r_entering + at_pc s rw_pc.r_exit_mutex + at_pc s rw_pc.r_uncounted
      + at_pc s rw_pc.r_last + at_pc s rw_pc.r_leaving) = 1
  ∧ s.stock_readcnt = ((at_pc s rw_pc.r_counted + at_pc s rw_pc.r_first
      + at_pc s rw_pc.r_entering + at_pc s rw_pc.reading + at_pc s rw_pc.r_exit_mutex : Nat) : Int)
  ∧ (1 ≤ at_pc s rw_pc.r_first → at_pc s rw_pc.reading = 0)
  ∧ (1 ≤ at_pc s rw_pc.r_last → at_pc s rw_pc.reading = 0)
  ∧ (1 ≤ at_pc s rw_pc.r_entering + at_pc s rw_pc.reading + at_pc s rw_pc.r_exit_mutex
        + at_pc s rw_pc.r_uncounted + at_pc s rw_pc.r_last →
      s.writer + at_pc s rw_pc.writing = 0)
  ∧ (at_pc s rw_pc.r_entering + at_pc s rw_pc.reading + at_pc s rw_pc.r_exit_mutex
        + at_pc s rw_pc.r_uncounted + at_pc s rw_pc.r_last = 0 →
      s.writer + at_pc s rw_pc.writing = 1)

/-! ## Lemmas -/

theorem wrap32_of_is_int {x : Int} (h : is_int x) : wrap32 x = x := by
  unfold is_int INT_MIN INT_MAX at h
  unfold wrap32
  omega

theorem wrap32_is_int (x : Int) : is_int (wrap32 x) := by
  unfold is_int INT_MIN INT_MAX wrap32
  omega

theorem wrap32_add_left (a b : Int) : wrap32 (wrap32 a + b) = wrap32 (a + b) := by
  unfold wrap32
  omega

theorem wrap32_sub_left (a b : Int) : wrap32 (wrap32 a - b) = wrap32 (a - b) := by
  unfold wrap32
  omega

/-! ### The commands in terms of the search loop -/

theorem task1.buy_search_none {root : stock_link} {stock_id : Int} (stock_num : Int)
    (h : search root stock_id = none) :
    task1.buy root stock_id stock_num = (MSG_NOT_EXISTS, root) := by
  induction root with
  | NULL => rfl
  | ptr item left right ihl ihr =>
    unfold search at h
    unfold task1.buy
    by_cases h1 : item.stock_id = stock_id
    · simp [h1] at h
    · by_cases h2 : stock_id < item.stock_id
      · simp only [h1, h2, if_true, if_false] at h ⊢
        rw [ihl h]
      · simp only [h1, h2, if_true, if_false] at h ⊢
        rw [ihr h]

theorem task1.buy_search_some {root : stock_link} {stock_id : Int} {it : STOCK_ITEM}
    (stock_num : Int) (h : search root stock_id = some it) :
    (task1.buy root stock_id stock_num).1
        = (if it.left_stock ≥ stock_num then MSG_BUY_SUCCESS else MSG_NOT_ENOUGH)
      ∧ search (task1.buy root stock_id stock_num).2 stock_id
        = some (if it.left_stock ≥ stock_num
            then { it with left_stock := wrap32 (it.left_stock - stock_num) } else it)
      ∧ (¬ it.left_stock ≥ stock_num → (task1.buy root stock_id stock_num).2 = root) := by
  induction root with
  | NULL => simp [search] at h
  | ptr item left right ihl ihr =>
    unfold search at h
    unfold task1.buy
    by_cases h1 : item.stock_id = stock_id
    · simp only [h1, if_true, Option.some.injEq] at h
      subst h
      by_cases h3 : item.left_stock ≥ stock_num
      · simp [h1, h3, search]
      · simp [h1, h3, search]
    · by_cases h2 : stock_id < item.stock_id
      · simp only [h1, h2, if_true, if_false] at h ⊢
        obtain ⟨a, b, c⟩ := ihl h
        refine ⟨a, ?_, ?_⟩
        · simp only [search, h1, h2, if_true, if_false]; exact b
        · intro hn; rw [c hn]
      · simp only [h1, h2, if_true, if_false] at h ⊢
        obtain ⟨a, b, c⟩ := ihr h
        refine ⟨a, ?_, ?_⟩
        · simp only [search, h1, h2, if_true, if_false]; exact b
        · intro hn; rw [c hn]

theorem task1.sell_search_none {root : stock_link} {stock_id : Int} (stock_num : Int)
    (h : search root stock_id = none) :
    task1.sell root stock_id stock_num = (MSG_NOT_EXISTS, root) := by
  induction root with
  | NULL => rfl
  | ptr item left right ihl ihr =>
    unfold search at h
    unfold task1.sell
    by_cases h1 : item.stock_id = stock_id
    · simp [h1] at h
    · by_cases h2 : stock_id < item.stock_id
      · simp only [h1, h2, if_true, if_false] at h ⊢
        rw [ihl h]
      · simp only [h1, h2, if_true, if_false] at h ⊢
        rw [ihr h]

theorem task1.sell_search_some {root : stock_link} {stock_id : Int} {it : STOCK_ITEM}
    (stock_num : Int) (h : search root stock_id = some it) :
    (task1.sell root stock_id stock_num).1 = MSG_SELL_SUCCESS
      ∧ search (task1.sell root stock_id stock_num).2 stock_id
        = some { it with left_stock := wrap32 (it.left_stock + stock_num) } := by
  induction root with
  | NULL => simp [search] at h
  | ptr item left right ihl ihr =>
    unfold search at h
    unfold task1.sell
    by_cases h1 : item.stock_id = stock_id
    · simp only [h1, if_true, Option.some.injEq] at h
      subst h
      simp [h1, search]
    · by_cases h2 : stock_id < item.stock_id
      · simp only [h1, h2, if_true, if_false] at h ⊢
        obtain ⟨a, b⟩ := ihl h
        refine ⟨a, ?_⟩
        simp only [search, h1, h2, if_true, if_false]; exact b
      · simp only [h1, h2, if_true, if_false] at h ⊢
        obtain ⟨a, b⟩ := ihr h
        refine ⟨a, ?_⟩
        simp only [search, h1, h2, if_true, if_false]; exact b

/-! ### Sequential task2 commands coincide with task1 on a quiescent tree -/

theorem task1.buy_quiescent {root : stock_link} (stock_id stock_num : Int)
    (h : Quiescent root) : Quiescent (task1.buy root stock_id stock_num).2 := by
  induction root with
  | NULL => simp [task1.buy, Quiescent]
  | ptr item left right ihl ihr =>
    obtain ⟨hi, hl, hr⟩ := h
    unfold task1.buy
    split_ifs
    · exact ⟨hi, hl, hr⟩
    · exact ⟨hi, hl, hr⟩
    · exact ⟨hi, ihl hl, hr⟩
    · exact ⟨hi, hl, ihr hr⟩

theorem task1.sell_quiescent {root : stock_link} (stock_id stock_num : Int)
    (h : Quiescent root) : Quiescent (task1.sell root stock_id stock_num).2 := by
  induction root with
  | NULL => simp [task1.sell, Quiescent]
  | ptr item left right ihl ihr =>
    obtain ⟨hi, hl, hr⟩ := h
    unfold task1.sell
    split_ifs
    · exact ⟨hi, hl, hr⟩
    · exact ⟨hi, ihl hl, hr⟩
    · exact ⟨hi, hl, ihr hr⟩

theorem task2.buy_eq_task1 {root : stock_link} (stock_id stock_num : Int)
    (h : Quiescent root) :
    task2.buy root stock_id stock_num = some (task1.buy root stock_id stock_num) := by
  induction root with
  | NULL => rfl
  | ptr item left right ihl ihr =>
    obtain ⟨⟨_, _, hw⟩, hl, hr⟩ := h
    unfold task2.buy task1.buy
    by_cases h1 : item.stock_id = stock_id
    · by_cases h3 : item.left_stock ≥ stock_num
      · simp [h1, h3, hw, task2.P, task2.V]
      · simp only [h1, h3, hw, task2.P, task2.V, if_true, if_false]
        cases item
        simp_all
    · by_cases h2 : stock_id < item.stock_id
      · simp [h1, h2, ihl hl]
      · simp [h1, h2, ihr hr]

theorem task2.sell_eq_task1 {root : stock_link} (stock_id stock_num : Int)
    (h : Quiescent root) :
    task2.sell root stock_id stock_num = some (task1.sell root stock_id stock_num) := by
  induction root with
  | NULL => rfl
  | ptr item left right ihl ihr =>
    obtain ⟨⟨_, _, hw⟩, hl, hr⟩ := h
    unfold task2.sell task1.sell
    by_cases h1 : item.stock_id = stock_id
    · simp [h1, hw, task2.P, task2.V]
    · by_cases h2 : stock_id < item.stock_id
      · simp [h1, h2, ihl hl]
      · simp [h1, h2, ihr hr]

/-! ### Quantities under the commands -/

theorem quantity_eq_some {root : stock_link} {stock_id q : Int} :
    quantity root stock_id = some q ↔
      ∃ it, search root stock_id = some it ∧ it.left_stock = q := by
  unfold quantity
  cases search root stock_id <;> simp

theorem task1.buy_quantity {root : stock_link} {stock_id q : Int} (stock_num : Int)
    (h : quantity root stock_id = some q) :
    (task1.buy root stock_id stock_num).1
        = (if q ≥ stock_num then MSG_BUY_SUCCESS else MSG_NOT_ENOUGH)
      ∧ quantity (task1.buy root stock_id stock_num).2 stock_id
        = some (if q ≥ stock_num then wrap32 (q - stock_num) else q)
      ∧ (¬ q ≥ stock_num → (task1.buy root stock_id stock_num).2 = root) := by
  obtain ⟨it, hs, hq⟩ := quantity_eq_some.mp h
  obtain ⟨a, b, c⟩ := task1.buy_search_some stock_num hs
  subst hq
  refine ⟨a, ?_, c⟩
  unfold quantity
  rw [b]
  by_cases h3 : it.left_stock ≥ stock_num <;> simp [h3]

theorem task1.sell_quantity {root : stock_link} {stock_id q : Int} (stock_num : Int)
    (h : quantity root stock_id = some q) :
    (task1.sell root stock_id stock_num).1 = MSG_SELL_SUCCESS
      ∧ quantity (task1.sell root stock_id stock_num).2 stock_id
        = some (wrap32 (q + stock_num)) := by
  obtain ⟨it, hs, hq⟩ := quantity_eq_some.mp h
  obtain ⟨a, b⟩ := task1.sell_search_some stock_num hs
  subst hq
  refine ⟨a, ?_⟩
  unfold quantity
  rw [b]
  simp

theorem msg_not_enough_ne_success : MSG_NOT_ENOUGH ≠ MSG_BUY_SUCCESS := by decide

theorem task1.run_cmds_quantity (stock_id : Int) (cmds : List record_cmd) :
    ∀ (root : stock_link) (q0 : Int), quantity root stock_id = some q0 → is_int q0 →
      quantity (task1.run_cmds root stock_id cmds).2 stock_id
        = some (wrap32 (q0 + sold_total cmds
            - bought_total cmds (task1.run_cmds root stock_id cmds).1)) := by
  induction cmds with
  | nil =>
    intro root q0 h hi
    simp [task1.run_cmds, sold_total, bought_total, h, wrap32_of_is_int hi]
  | cons c cs ih =>
    intro root q0 h hi
    cases c with
    | buy n =>
      obtain ⟨a, b, _⟩ := task1.buy_quantity n h
      by_cases h3 : q0 ≥ n
      · simp only [h3, if_true] at a b
        have := ih _ _ b (wrap32_is_int _)
        simp only [task1.run_cmds, task1.apply_cmd, sold_total, bought_total, a, if_true]
        rw [this]
        congr 1
        generalize sold_total cs = S
        generalize bought_total cs _ = B
        unfold wrap32
        omega
      · simp only [h3, if_false] at a b
        have := ih _ _ b hi
        simp only [task1.run_cmds, task1.apply_cmd, sold_total, bought_total, a,
          msg_not_enough_ne_success, if_false]
        rw [this, zero_add]
    | sell n =>
      obtain ⟨a, b⟩ := task1.sell_quantity n h
      have := ih _ _ b (wrap32_is_int _)
      simp only [task1.run_cmds, task1.apply_cmd, sold_total, bought_total]
      rw [this]
      congr 1
      generalize sold_total cs = S
      generalize bought_total cs _ = B
      unfold wrap32
      omega

theorem task1.run_cmds_append (stock_id : Int) (pre post : List record_cmd) :
    ∀ root : stock_link,
      task1.run_cmds root stock_id (pre ++ post)
        = ((task1.run_cmds root stock_id pre).1
            ++ (task1.run_cmds (task1.run_cmds root stock_id pre).2 stock_id post).1,
          (task1.run_cmds (task1.run_cmds root stock_id pre).2 stock_id post).2) := by
  induction pre with
  | nil => intro root; simp [task1.run_cmds]
  | cons c cs ih => intro root; simp [task1.run_cmds, ih]

theorem task1.run_cmds_length (stock_id : Int) (cmds : List record_cmd) :
    ∀ root : stock_link, (task1.run_cmds root stock_id cmds).1.length = cmds.length := by
  induction cmds with
  | nil => intro root; simp [task1.run_cmds]
  | cons c cs ih => intro root; simp [task1.run_cmds, ih]

theorem task1.run_cmds_quantity_some (stock_id : Int) (cmds : List record_cmd) :
    ∀ (root : stock_link) (q0 : Int), quantity root stock_id = some q0 →
      ∃ q, quantity (task1.run_cmds root stock_id cmds).2 stock_id = some q := by
  induction cmds with
  | nil => intro root q0 h; exact ⟨q0, h⟩
  | cons c cs ih =>
    intro root q0 h
    cases c with
    | buy n => exact ih _ _ (task1.buy_quantity n h).2.1
    | sell n => exact ih _ _ (task1.sell_quantity n h).2

theorem task1.apply_cmd_quiescent {root : stock_link} (stock_id : Int) (c : record_cmd)
    (h : Quiescent root) : Quiescent (task1.apply_cmd root stock_id c).2 := by
  cases c with
  | buy n => exact task1.buy_quiescent stock_id n h
  | sell n => exact task1.sell_quiescent stock_id n h

theorem task2.run_cmds_eq_task1 (stock_id : Int) (cmds : List record_cmd) :
    ∀ root : stock_link, Quiescent root →
      task2.run_cmds root stock_id cmds = some (task1.run_cmds root stock_id cmds) := by
  induction cmds with
  | nil => intro root _; rfl
  | cons c cs ih =>
    intro root h
    have h1 : task2.apply_cmd root stock_id c = some (task1.apply_cmd root stock_id c) := by
      cases c with
      | buy n => exact task2.buy_eq_task1 stock_id n h
      | sell n => exact task2.sell_eq_task1 stock_id n h
    simp only [task2.run_cmds, h1, ih _ (task1.apply_cmd_quiescent stock_id c h),
      task1.run_cmds]

/-! ### Building the index -/

theorem mid_bounds {start end_ : Int} (h : start ≤ end_) :
    start ≤ (start + end_).tdiv 2 ∧ (start + end_).tdiv 2 ≤ end_ := by
  rcases Int.le_total 0 (start + end_) with h0 | h0
  · rw [Int.tdiv_eq_ediv h0 (by decide)]; omega
  · have h1 : (start + end_).tdiv 2 = -((-(start + end_)) / 2) := by
      rw [← Int.tdiv_eq_ediv (by omega) (by decide), Int.neg_tdiv, neg_neg]
    rw [h1]; omega

theorem stock_arr_to_bst_depth_enough (stock_arr : List stock_row) :
    ∀ (depth : Nat) (start end_ : Int), (end_ - start + 1).toNat ≤ depth →
      stock_arr_to_bst_depth depth stock_arr start end_
        = stock_arr_to_bst stock_arr start end_ := by
  intro depth
  induction depth using Nat.strong_induction_on with
  | _ depth ih =>
    intro start end_ h
    unfold stock_arr_to_bst
    by_cases hse : start > end_
    · have h0 : (end_ - start + 1).toNat = 0 := by omega
      rw [h0]
      cases depth with
      | zero => rfl
      | succ d => simp [stock_arr_to_bst_depth, hse]
    · have hb := mid_bounds (not_lt.mp hse)
      obtain ⟨d, hd⟩ : ∃ d, depth = d + 1 := ⟨depth - 1, by omega⟩
      obtain ⟨k, hk⟩ : ∃ k, (end_ - start + 1).toNat = k + 1 :=
        ⟨(end_ - start + 1).toNat - 1, by omega⟩
      subst hd
      rw [hk]
      simp only [stock_arr_to_bst_depth, hse, if_false]
      have e1 := ih d (by omega) start ((start + end_).tdiv 2 - 1) (by omega)
      have e2 := ih d (by omega) ((start + end_).tdiv 2 + 1) end_ (by omega)
      rw [e1, e2]
      by_cases hk0 : k = d
      · subst hk0; rw [e1, e2]
      · have e3 := ih k (by omega) start ((start + end_).tdiv 2 - 1) (by omega)
        have e4 := ih k (by omega) ((start + end_).tdiv 2 + 1) end_ (by omega)
        rw [e3, e4]

/-- The equation that defines `stock_arr_to_bst` in the source. -/
theorem stock_arr_to_bst_eq (stock_arr : List stock_row) (start end_ : Int) :
    stock_arr_to_bst stock_arr start end_
      = if start > end_ then stock_link.NULL
        else
          stock_link.ptr
            (new_item (arr_get stock_arr ((start + end_).tdiv 2)).stock_id
              (arr_get stock_arr ((start + end_).tdiv 2)).left_stock
              (arr_get stock_arr ((start + end_).tdiv 2)).stock_price)
            (stock_arr_to_bst stock_arr start ((start + end_).tdiv 2 - 1))
            (stock_arr_to_bst stock_arr ((start + end_).tdiv 2 + 1) end_) := by
  by_cases hse : start > end_
  · have h0 : (end_ - start + 1).toNat = 0 := by omega
    simp [stock_arr_to_bst, h0, stock_arr_to_bst_depth, hse]
  · have hb := mid_bounds (not_lt.mp hse)
    obtain ⟨k, hk⟩ : ∃ k, (end_ - start + 1).toNat = k + 1 :=
      ⟨(end_ - start + 1).toNat - 1, by omega⟩
    rw [if_neg hse]
    conv_lhs => unfold stock_arr_to_bst
    rw [hk]
    simp only [stock_arr_to_bst_depth, hse, if_false]
    rw [stock_arr_to_bst_depth_enough _ k _ _ (by omega),
      stock_arr_to_bst_depth_enough _ k _ _ (by omega)]

/-! ### Responses of the commands -/

theorem task1.buy_response_cases (root : stock_link) (stock_id stock_num : Int) :
    (task1.buy root stock_id stock_num).1 = MSG_NOT_EXISTS
      ∨ (task1.buy root stock_id stock_num).1 = MSG_BUY_SUCCESS
      ∨ (task1.buy root stock_id stock_num).1 = MSG_NOT_ENOUGH := by
  induction root with
  | NULL => left; rfl
  | ptr item left right ihl ihr =>
    unfold task1.buy
    split_ifs
    · right; left; rfl
    · right; right; rfl
    · exact ihl
    · exact ihr

theorem task1.buy_response_ne_invalid (root : stock_link) (stock_id stock_num : Int) :
    (task1.buy root stock_id stock_num).1 ≠ MSG_INVALID := by
  rcases task1.buy_response_cases root stock_id stock_num with h | h | h <;>
    rw [h] <;> decide

/-! ### A snapshot whose first token is not a number -/

theorem load_loop_not_a_number (fuel : Nat) :
    ∀ (g : globals) (vars : stock_row), load_loop fuel g vars "abc\n".toList = none := by
  induction fuel with
  | zero => intro g vars; rfl
  | succ fuel ih =>
    intro g vars
    have h : fscanf_d_d_d "abc\n".toList vars = (0, vars, "abc\n".toList) := rfl
    unfold load_loop
    simp only [h]
    rw [if_neg (by decide)]
    exact ih _ _

/-! ### The items of a built tree -/

theorem arr_get_append (pre : List stock_row) (x : stock_row) (post : List stock_row) :
    arr_get (pre ++ x :: post) (pre.length : Int) = x := by
  unfold arr_get
  rw [if_pos (by omega), Int.toNat_ofNat, List.getD_eq_getElem?_getD,
    List.getElem?_append_right (le_refl _), Nat.sub_self]
  simp

theorem exists_split_at {α : Type} :
    ∀ (l : List α) (j : Nat), j < l.length → ∃ a x b, l = a ++ x :: b ∧ a.length = j := by
  intro l
  induction l with
  | nil => intro j h; simp at h
  | cons y ys ih =>
    intro j h
    cases j with
    | zero => exact ⟨[], y, ys, rfl, rfl⟩
    | succ k =>
      obtain ⟨a, x, b, h1, h2⟩ := ih k (by simpa using h)
      exact ⟨y :: a, x, b, by rw [h1]; rfl, by simp [h2]⟩

theorem items_stock_arr_to_bst (n : Nat) :
    ∀ (pre mid post : List stock_row) (start end_ : Int), mid.length = n →
      start = pre.length → end_ = (pre.length : Int) + mid.length - 1 →
      items (stock_arr_to_bst (pre ++ mid ++ post) start end_) = mid.map item_of_row := by
  induction n using Nat.strong_induction_on with
  | _ n ih =>
    intro pre mid post start end_ hn hs he
    rw [stock_arr_to_bst_eq]
    by_cases hse : start > end_
    · have : mid.length = 0 := by omega
      have hm : mid = [] := List.length_eq_zero.mp this
      simp [hse, hm, items]
    · have hb := mid_bounds (not_lt.mp hse)
      rw [if_neg hse]
      obtain ⟨j, hj⟩ : ∃ j : Nat, (start + end_).tdiv 2 = start + j :=
        ⟨((start + end_).tdiv 2 - start).toNat, by omega⟩
      have hjlt : j < mid.length := by omega
      obtain ⟨a, x, b, hsplit, hlen1⟩ := exists_split_at mid j hjlt
      subst hsplit
      simp only [List.length_append, List.length_cons] at hn he hjlt
      have harr1 : pre ++ (a ++ x :: b) ++ post = (pre ++ a) ++ x :: (b ++ post) := by simp
      have hget : arr_get (pre ++ (a ++ x :: b) ++ post) ((start + end_).tdiv 2) = x := by
        rw [harr1, hj, hs]
        have : ((pre.length : Int) + j) = ((pre ++ a).length : Int) := by
          rw [List.length_append, hlen1]; push_cast; rfl
        rw [this]
        exact arr_get_append _ _ _
      have h1 : items (stock_arr_to_bst (pre ++ (a ++ x :: b) ++ post) start
          ((start + end_).tdiv 2 - 1)) = a.map item_of_row := by
        have harr : pre ++ (a ++ x :: b) ++ post = pre ++ a ++ (x :: (b ++ post)) := harr1
        rw [harr]
        exact ih j (by omega) pre a _ start _ hlen1 hs (by omega)
      have h2 : items (stock_arr_to_bst (pre ++ (a ++ x :: b) ++ post)
          ((start + end_).tdiv 2 + 1) end_) = b.map item_of_row := by
        have harr : pre ++ (a ++ x :: b) ++ post = (pre ++ a ++ [x]) ++ b ++ post := by simp
        rw [harr]
        refine ih b.length (by omega) _ b post _ _ rfl ?_ ?_
        · simp only [List.length_append, hlen1, List.length_singleton]
          push_cast; omega
        · simp only [List.length_append, hlen1, List.length_singleton]
          push_cast; omega
      simp only [items, h1, h2, hget]
      simp [item_of_row]

theorem items_stock_arr_to_bst_all (arr : List stock_row) :
    items (stock_arr_to_bst arr 0 ((arr.length : Int) - 1)) = arr.map item_of_row := by
  have := items_stock_arr_to_bst arr.length [] arr [] 0 ((arr.length : Int) - 1) rfl
    (by simp) (by simp)
  simpa using this

theorem row_of_item_of_row (r : stock_row) : row_of (item_of_row r) = r := rfl

theorem rows_stock_arr_to_bst_all (arr : List stock_row) :
    rows (stock_arr_to_bst arr 0 ((arr.length : Int) - 1)) = arr := by
  unfold rows
  rw [items_stock_arr_to_bst_all, List.map_map]
  have : row_of ∘ item_of_row = id := by funext r; rfl
  rw [this, List.map_id]

theorem quiescent_stock_arr_to_bst_depth (arr : List stock_row) (depth : Nat) :
    ∀ start end_ : Int, Quiescent (stock_arr_to_bst_depth depth arr start end_) := by
  induction depth with
  | zero => intro start end_; simp [stock_arr_to_bst_depth, Quiescent]
  | succ d ih =>
    intro start end_
    unfold stock_arr_to_bst_depth
    split_ifs
    · simp [Quiescent]
    · exact ⟨⟨rfl, rfl, rfl⟩, ih _ _, ih _ _⟩

theorem quiescent_stock_arr_to_bst (arr : List stock_row) (start end_ : Int) :
    Quiescent (stock_arr_to_bst arr start end_) :=
  quiescent_stock_arr_to_bst_depth arr _ start end_

theorem shape_stock_arr_to_bst_depth (arr1 arr2 : List stock_row) (depth : Nat) :
    ∀ start end_ : Int,
      shape (stock_arr_to_bst_depth depth arr1 start end_)
        = shape (stock_arr_to_bst_depth depth arr2 start end_) := by
  induction depth with
  | zero => intro start end_; rfl
  | succ d ih =>
    intro start end_
    unfold stock_arr_to_bst_depth
    split_ifs
    · rfl
    · simp only [shape, ih]

theorem shape_stock_arr_to_bst (arr1 arr2 : List stock_row) (start end_ : Int) :
    shape (stock_arr_to_bst arr1 start end_) = shape (stock_arr_to_bst arr2 start end_) :=
  shape_stock_arr_to_bst_depth arr1 arr2 _ start end_

/-! ### Trees of one shape with the same items are equal -/

theorem length_items_shape (t : stock_link) : (items (shape t)).length = (items t).length := by
  induction t with
  | NULL => rfl
  | ptr item left right ihl ihr => simp [shape, items, ihl, ihr]

theorem eq_of_shape_of_items :
    ∀ t1 t2 : stock_link, shape t1 = shape t2 → items t1 = items t2 → t1 = t2 := by
  intro t1
  induction t1 with
  | NULL =>
    intro t2 hs _
    cases t2 with
    | NULL => rfl
    | ptr i l r => simp [shape] at hs
  | ptr item left right ihl ihr =>
    intro t2 hs hi
    cases t2 with
    | NULL => simp [shape] at hs
    | ptr i l r =>
      simp only [shape, stock_link.ptr.injEq, true_and] at hs
      have hlen : (items left).length = (items l).length := by
        rw [← length_items_shape left, ← length_items_shape l, hs.1]
      simp only [items] at hi
      obtain ⟨h1, h2⟩ := List.append_inj hi hlen
      simp only [List.cons.injEq] at h2
      rw [ihl l hs.1 h1, ihr r hs.2 h2.2, h2.1]

theorem items_of_quiescent (t : stock_link) (h : Quiescent t) :
    items t = (rows t).map item_of_row := by
  induction t with
  | NULL => rfl
  | ptr item left right ihl ihr =>
    obtain ⟨⟨h1, h2, h3⟩, hl, hr⟩ := h
    have hitem : item_of_row (row_of item) = item := by
      cases item
      simp_all [item_of_row, row_of, new_item]
    simp only [rows, items, List.map_append, List.map_cons, List.map_map] at ihl ihr ⊢
    rw [← ihl hl, ← ihr hr, hitem]

/-- A quiescent tree with the shape `stock_arr_to_bst` gives `n` elements is
the tree `stock_arr_to_bst` builds from its own rows. -/
theorem rebuild_eq (t : stock_link) (arr0 : List stock_row) (hq : Quiescent t)
    (hs : shape t = shape (stock_arr_to_bst arr0 0 ((arr0.length : Int) - 1))) :
    stock_arr_to_bst (rows t) 0 (((rows t).length : Int) - 1) = t := by
  have hlen : (rows t).length = arr0.length := by
    unfold rows
    rw [List.length_map, ← length_items_shape t, hs, length_items_shape,
      items_stock_arr_to_bst_all, List.length_map]
  apply eq_of_shape_of_items
  · rw [hs, hlen]
    exact shape_stock_arr_to_bst _ _ _ _
  · rw [items_stock_arr_to_bst_all, items_of_quiescent t hq]

/-! ### Printing and scanning decimal numbers -/

theorem print_nat_loop_eq (n : Nat) :
    ∀ (fuel : Nat) (acc : List Char), n < fuel →
      print_nat_loop fuel n acc = print_nat n ++ acc := by
  induction n using Nat.strong_induction_on with
  | _ n ih =>
    intro fuel acc h
    obtain ⟨f, hf⟩ : ∃ f, fuel = f + 1 := ⟨fuel - 1, by omega⟩
    subst hf
    unfold print_nat
    by_cases h10 : n < 10
    · simp [print_nat_loop, h10]
    · have hdiv : n / 10 < n := Nat.div_lt_self (by omega) (by decide)
      simp only [print_nat_loop, h10, if_false]
      rw [ih (n / 10) hdiv f _ (by omega), ih (n / 10) hdiv n _ hdiv]
      simp

theorem print_nat_eq (n : Nat) :
    print_nat n
      = if n < 10 then [digit_char n] else print_nat (n / 10) ++ [digit_char (n % 10)] := by
  by_cases h10 : n < 10
  · simp [print_nat, print_nat_loop, h10]
  · have hdiv : n / 10 < n := Nat.div_lt_self (by omega) (by decide)
    rw [if_neg h10]
    conv_lhs => unfold print_nat
    simp only [print_nat_loop, h10, if_false]
    exact print_nat_loop_eq _ _ _ hdiv

theorem digit_char_spec : ∀ d : Nat, d < 10 →
    isdigit (digit_char d) = true ∧ (digit_char d).toNat - 48 = d := by
  decide

theorem scan_digits_print_nat_any (n : Nat) :
    ∀ (acc : Nat) (rest : List Char),
      scan_digits (print_nat n ++ rest) acc
        = scan_digits rest (acc * 10 ^ (print_nat n).length + n) := by
  induction n using Nat.strong_induction_on with
  | _ n ih =>
    intro acc rest
    rw [print_nat_eq]
    by_cases h10 : n < 10
    · obtain ⟨hd1, hd2⟩ := digit_char_spec n h10
      simp only [h10, if_true, List.singleton_append, scan_digits, hd1, hd2,
        List.length_singleton, pow_one]
      congr 1
      omega
    · have hdiv : n / 10 < n := Nat.div_lt_self (by omega) (by decide)
      obtain ⟨hd1, hd2⟩ := digit_char_spec (n % 10) (Nat.mod_lt _ (by decide))
      simp only [h10, if_false, List.append_assoc, List.singleton_append,
        List.length_append, List.length_singleton]
      rw [ih (n / 10) hdiv]
      simp only [scan_digits, hd1, hd2, if_true]
      congr 1
      have e : acc * 10 ^ ((print_nat (n / 10)).length + 1)
          = 10 * (acc * 10 ^ (print_nat (n / 10)).length) := by ring
      rw [e]
      omega

theorem scan_digits_no_digit (rest : List Char) (h : no_digit_head rest) (k : Nat) :
    scan_digits rest k = (k, rest) := by
  cases rest with
  | nil => rfl
  | cons c cs => simp [scan_digits, h c cs rfl]

theorem scan_digits_print_nat (n : Nat) (rest : List Char) (h : no_digit_head rest) :
    scan_digits (print_nat n ++ rest) 0 = (n, rest) := by
  rw [scan_digits_print_nat_any, scan_digits_no_digit rest h]
  simp

theorem print_nat_head (n : Nat) :
    ∃ d ds, print_nat n = d :: ds ∧ isdigit d = true := by
  induction n using Nat.strong_induction_on with
  | _ n ih =>
    rw [print_nat_eq]
    by_cases h10 : n < 10
    · exact ⟨digit_char n, [], by simp [h10], (digit_char_spec n h10).1⟩
    · have hdiv : n / 10 < n := Nat.div_lt_self (by omega) (by decide)
      obtain ⟨d, ds, h1, h2⟩ := ih (n / 10) hdiv
      exact ⟨d, ds ++ [digit_char (n % 10)], by simp [h10, h1], h2⟩

theorem isdigit_not_special {c : Char} (h : isdigit c = true) :
    isspace c = false ∧ c ≠ '-' ∧ c ≠ '+' := by
  refine ⟨?_, ?_, ?_⟩
  · by_contra hs
    simp only [isspace, Bool.or_eq_true, decide_eq_true_eq, Bool.not_eq_false] at hs
    rcases hs with ((((hs | hs) | hs) | hs) | hs) | hs <;> subst hs <;> simp [isdigit] at h
  · rintro rfl; simp [isdigit] at h
  · rintro rfl; simp [isdigit] at h

theorem scan_number_print_nat (negative : Bool) (n : Nat) (rest : List Char)
    (h : no_digit_head rest) :
    scan_number negative (print_nat n ++ rest)
      = scan_result.converted (wrap32 (if negative then -(n : Int) else (n : Int))) rest := by
  have hs := scan_digits_print_nat n rest h
  obtain ⟨d, ds, h1, h2⟩ := print_nat_head n
  rw [h1] at hs ⊢
  simp only [List.cons_append] at hs ⊢
  simp only [scan_number, h2, if_true, hs]

theorem scan_d_print_d (x : Int) (rest : List Char) (hx : is_int x)
    (h : no_digit_head rest) :
    scan_d (print_d x ++ rest) = scan_result.converted x rest := by
  unfold print_d
  by_cases hneg : x < 0
  · simp only [hneg, if_true, List.cons_append]
    have hsk : skip_space ('-' :: (print_nat x.natAbs ++ rest))
        = '-' :: (print_nat x.natAbs ++ rest) := by
      simp [skip_space, isspace]
    simp only [scan_d, hsk, if_true]
    rw [scan_number_print_nat true _ rest h]
    have : -(x.natAbs : Int) = x := by omega
    simp only [if_true, this, wrap32_of_is_int hx]
  · simp only [hneg, if_false]
    obtain ⟨d, ds, h1, h2⟩ := print_nat_head x.natAbs
    obtain ⟨n1, n2, n3⟩ := isdigit_not_special h2
    have hsk : skip_space (print_nat x.natAbs ++ rest) = print_nat x.natAbs ++ rest := by
      rw [h1]; simp [skip_space, n1]
    unfold scan_d
    rw [hsk]
    have hform : print_nat x.natAbs ++ rest = d :: (ds ++ rest) := by rw [h1]; rfl
    rw [hform]
    simp only [n2, n3, if_false]
    rw [← hform, scan_number_print_nat false _ rest h]
    have : (x.natAbs : Int) = x := by omega
    simp [this, wrap32_of_is_int hx]

/-! ### Reading back what `inorder_print` wrote -/

theorem skip_space_idem (s : List Char) : skip_space (skip_space s) = skip_space s := by
  induction s with
  | nil => rfl
  | cons c cs ih =>
    by_cases hc : isspace c = true
    · simp [skip_space, hc, ih]
    · simp [skip_space, hc]

theorem scan_d_skip_space (s : List Char) : scan_d (skip_space s) = scan_d s := by
  unfold scan_d
  rw [skip_space_idem]

theorem scan_d_cons_space (c : Char) (s : List Char) (hc : isspace c = true) :
    scan_d (c :: s) = scan_d s := by
  unfold scan_d
  simp [skip_space, hc]

theorem fscanf_cons_space (c : Char) (s : List Char) (vars : stock_row)
    (hc : isspace c = true) : fscanf_d_d_d (c :: s) vars = fscanf_d_d_d s vars := by
  unfold fscanf_d_d_d
  rw [scan_d_cons_space c s hc]

theorem no_digit_head_cons (c : Char) (s : List Char) (hc : isdigit c = false) :
    no_digit_head (c :: s) := by
  intro d ds h
  simp only [List.cons.injEq] at h
  rw [← h.1]; exact hc

theorem fscanf_fprintf_item (item : STOCK_ITEM) (rest : List Char) (vars : stock_row)
    (h : row_is_int (row_of item)) :
    fscanf_d_d_d (fprintf_item item ++ rest) vars = (3, row_of item, '\n' :: rest) := by
  obtain ⟨h1, h2, h3⟩ := h
  change is_int item.stock_id at h1
  change is_int item.left_stock at h2
  change is_int item.stock_price at h3
  have hform : fprintf_item item ++ rest
      = print_d item.stock_id ++ (' ' :: (print_d item.left_stock ++
          (' ' :: (print_d item.stock_price ++ ('\n' :: rest))))) := by
    simp [fprintf_item]
  rw [hform]
  unfold fscanf_d_d_d
  rw [scan_d_print_d _ _ h1 (no_digit_head_cons _ _ (by decide))]
  simp only
  rw [scan_d_skip_space, scan_d_cons_space _ _ (by decide),
    scan_d_print_d _ _ h2 (no_digit_head_cons _ _ (by decide))]
  simp only
  rw [scan_d_skip_space, scan_d_cons_space _ _ (by decide),
    scan_d_print_d _ _ h3 (no_digit_head_cons _ _ (by decide))]
  rfl

theorem task1.inorder_print_eq (root : stock_link) :
    ∀ fp : List Char, task1.inorder_print root fp = fp ++ (items root).flatMap fprintf_item := by
  induction root with
  | NULL => intro fp; simp [task1.inorder_print, items]
  | ptr item left right ihl ihr =>
    intro fp
    simp [task1.inorder_print, items, ihl, ihr, List.flatMap_append]

theorem task1.update_file_eq (root : stock_link) :
    task1.update_file root = (items root).flatMap fprintf_item := by
  simp [task1.update_file, task1.inorder_print_eq]

theorem load_loop_cons_newline (fuel : Nat) (g : globals) (vars : stock_row)
    (s : List Char) :
    load_loop fuel g vars ('\n' :: s) = load_loop fuel g vars s := by
  cases fuel with
  | zero => rfl
  | succ f =>
    unfold load_loop
    rw [fscanf_cons_space _ _ _ (by decide)]

theorem load_loop_file (its : List STOCK_ITEM) :
    ∀ (fuel : Nat) (g : globals) (vars : stock_row),
      (∀ it ∈ its, row_is_int (row_of it)) → its.length < fuel →
      load_loop fuel g vars (its.flatMap fprintf_item)
        = some { g with
            total_stock_num := g.total_stock_num + its.length,
            stock_list := g.stock_list ++ its.map row_of } := by
  induction its with
  | nil =>
    intro fuel g vars _ hf
    obtain ⟨f, rfl⟩ : ∃ f, fuel = f + 1 := ⟨fuel - 1, by simp at hf; omega⟩
    simp [load_loop, fscanf_d_d_d, scan_d, skip_space]
  | cons it its ih =>
    intro fuel g vars hint hf
    obtain ⟨f, rfl⟩ : ∃ f, fuel = f + 1 := ⟨fuel - 1, by simp at hf; omega⟩
    have h1 := hint it (List.mem_cons_self _ _)
    simp only [List.flatMap_cons]
    unfold load_loop
    rw [fscanf_fprintf_item it _ vars h1]
    simp only
    rw [if_neg (by decide), load_loop_cons_newline,
      ih f _ _ (fun x hx => hint x (List.mem_cons_of_mem _ hx))
        (by simp at hf; omega)]
    simp [stock_add_to_list, row_of, Nat.add_assoc, Nat.add_comm 1]

/-! ### The sort -/

theorem msort_merge_perm (compar : stock_row → stock_row → Int) :
    ∀ (fuel : Nat) (b1 b2 : List stock_row), (msort_merge compar fuel b1 b2).Perm (b1 ++ b2) := by
  intro fuel
  induction fuel with
  | zero => intro b1 b2; unfold msort_merge; exact List.Perm.refl _
  | succ fuel ih =>
    intro b1 b2
    cases b1 with
    | nil => unfold msort_merge; exact List.Perm.refl _
    | cons x xs =>
      cases b2 with
      | nil => unfold msort_merge; simp
      | cons y ys =>
        unfold msort_merge
        split_ifs
        · exact List.Perm.cons x (ih xs (y :: ys))
        · refine (List.Perm.cons y (ih (x :: xs) ys)).trans ?_
          exact (List.perm_middle :
            (x :: xs ++ y :: ys).Perm (y :: (x :: xs ++ ys))).symm

theorem msort_with_tmp_perm (compar : stock_row → stock_row → Int) :
    ∀ (depth : Nat) (b : List stock_row), (msort_with_tmp compar depth b).Perm b := by
  intro depth
  induction depth with
  | zero => intro b; unfold msort_with_tmp; exact List.Perm.refl _
  | succ depth ih =>
    intro b
    unfold msort_with_tmp
    split_ifs
    · exact List.Perm.refl _
    · refine (msort_merge_perm compar _ _ _).trans ?_
      have h := List.Perm.append (ih (b.take (b.length / 2))) (ih (b.drop (b.length / 2)))
      rwa [List.take_append_drop] at h

theorem qsort_perm (compar : stock_row → stock_row → Int) (l : List stock_row) :
    (qsort compar l).Perm l := msort_with_tmp_perm compar _ l

theorem qsort_length (compar : stock_row → stock_row → Int) (l : List stock_row) :
    (qsort compar l).length = l.length := (qsort_perm compar l).length_eq

theorem less_total {a b : stock_row} (h : ¬ le_by_less a b) : le_by_less b a := by
  unfold le_by_less less wrap32 at *
  omega

theorem msort_merge_head (fuel : Nat) (b1 b2 : List stock_row) :
    ∀ z ∈ (msort_merge less fuel b1 b2).head?, z ∈ b1.head? ∨ z ∈ b2.head? := by
  intro z hz
  cases fuel with
  | zero =>
    unfold msort_merge at hz
    cases b1 with
    | nil => right; simpa using hz
    | cons x xs => left; simpa using hz
  | succ fuel =>
    cases b1 with
    | nil => unfold msort_merge at hz; right; exact hz
    | cons x xs =>
      cases b2 with
      | nil => unfold msort_merge at hz; left; exact hz
      | cons y ys =>
        unfold msort_merge at hz
        split_ifs at hz
        · left; simpa using hz
        · right; simpa using hz

theorem msort_merge_chain :
    ∀ (fuel : Nat) (b1 b2 : List stock_row), b1.length + b2.length ≤ fuel →
      List.Chain' le_by_less b1 → List.Chain' le_by_less b2 →
      List.Chain' le_by_less (msort_merge less fuel b1 b2) := by
  intro fuel
  induction fuel with
  | zero =>
    intro b1 b2 hf h1 h2
    have e1 : b1 = [] := List.length_eq_zero.mp (by omega)
    have e2 : b2 = [] := List.length_eq_zero.mp (by omega)
    subst e1 e2
    simp [msort_merge]
  | succ fuel ih =>
    intro b1 b2 hf h1 h2
    cases b1 with
    | nil => unfold msort_merge; exact h2
    | cons x xs =>
      cases b2 with
      | nil => unfold msort_merge; exact h1
      | cons y ys =>
        simp only [List.length_cons] at hf
        unfold msort_merge
        by_cases hxy : less x y ≤ 0
        · rw [if_pos hxy]
          refine List.chain'_cons'.mpr ⟨?_, ih xs (y :: ys) (by simp only [List.length_cons]; omega) h1.tail h2⟩
          intro z hz
          rcases msort_merge_head fuel xs (y :: ys) z hz with hz1 | hz1
          · exact (List.chain'_cons'.mp h1).1 z hz1
          · have : z = y := by simpa using hz1.symm
            subst this
            exact hxy
        · rw [if_neg hxy]
          refine List.chain'_cons'.mpr ⟨?_, ih (x :: xs) ys (by simp only [List.length_cons]; omega) h1 h2.tail⟩
          intro z hz
          rcases msort_merge_head fuel (x :: xs) ys z hz with hz1 | hz1
          · have : z = x := by simpa using hz1.symm
            subst this
            exact less_total hxy
          · exact (List.chain'_cons'.mp h2).1 z hz1

theorem msort_with_tmp_chain :
    ∀ (depth : Nat) (b : List stock_row), b.length ≤ depth + 1 →
      List.Chain' le_by_less (msort_with_tmp less depth b) := by
  intro depth
  induction depth with
  | zero =>
    intro b hb
    unfold msort_with_tmp
    cases b with
    | nil => simp
    | cons x xs =>
      have e : xs = [] := List.length_eq_zero.mp (by simp only [List.length_cons] at hb; omega)
      subst e
      simp
  | succ depth ih =>
    intro b hb
    unfold msort_with_tmp
    by_cases h1 : b.length ≤ 1
    · rw [if_pos h1]
      cases b with
      | nil => simp
      | cons x xs =>
        have e : xs = [] := List.length_eq_zero.mp (by simp only [List.length_cons] at h1; omega)
        subst e
        simp
    · rw [if_neg h1]
      refine msort_merge_chain _ _ _ ?_ (ih _ ?_) (ih _ ?_)
      · rw [(msort_with_tmp_perm less depth _).length_eq,
          (msort_with_tmp_perm less depth _).length_eq, List.length_take, List.length_drop]
        omega
      · rw [List.length_take]; omega
      · rw [List.length_drop]; omega

theorem qsort_chain (l : List stock_row) : List.Chain' le_by_less (qsort less l) :=
  msort_with_tmp_chain _ l (by omega)

theorem msort_merge_of_le (compar : stock_row → stock_row → Int) :
    ∀ (fuel : Nat) (b1 b2 : List stock_row),
      (∀ a ∈ b1, ∀ b ∈ b2, compar a b ≤ 0) → msort_merge compar fuel b1 b2 = b1 ++ b2 := by
  intro fuel
  induction fuel with
  | zero => intro b1 b2 _; rfl
  | succ fuel ih =>
    intro b1 b2 h
    cases b1 with
    | nil => unfold msort_merge; rfl
    | cons x xs =>
      cases b2 with
      | nil => unfold msort_merge; simp
      | cons y ys =>
        unfold msort_merge
        rw [if_pos (h x (List.mem_cons_self _ _) y (List.mem_cons_self _ _))]
        rw [ih xs (y :: ys) (fun a ha b hb => h a (List.mem_cons_of_mem _ ha) b hb)]
        rfl

theorem msort_with_tmp_of_pairwise (compar : stock_row → stock_row → Int) :
    ∀ (depth : Nat) (b : List stock_row),
      List.Pairwise (fun a b => compar a b ≤ 0) b → msort_with_tmp compar depth b = b := by
  intro depth
  induction depth with
  | zero => intro b _; rfl
  | succ depth ih =>
    intro b hb
    unfold msort_with_tmp
    split_ifs
    · rfl
    · have hsplit : b.take (b.length / 2) ++ b.drop (b.length / 2) = b :=
        List.take_append_drop _ _
      have hp := hb
      rw [← hsplit, List.pairwise_append] at hp
      rw [ih _ hp.1, ih _ hp.2.1, msort_merge_of_le compar _ _ _ hp.2.2, hsplit]

theorem qsort_of_pairwise (compar : stock_row → stock_row → Int) (l : List stock_row)
    (h : List.Pairwise (fun a b => compar a b ≤ 0) l) : qsort compar l = l :=
  msort_with_tmp_of_pairwise compar _ l h

/-! ### What the loading loop collects -/

theorem scan_number_is_int {negative : Bool} {s : List Char} {x : Int} {rest : List Char}
    (h : scan_number negative s = scan_result.converted x rest) : is_int x := by
  cases s with
  | nil => simp [scan_number] at h
  | cons d ds =>
    unfold scan_number at h
    by_cases hd : isdigit d = true
    · simp only [hd, if_true, scan_result.converted.injEq] at h
      rw [← h.1]
      exact wrap32_is_int _
    · simp [hd] at h

theorem scan_d_is_int {s : List Char} {x : Int} {rest : List Char}
    (h : scan_d s = scan_result.converted x rest) : is_int x := by
  unfold scan_d at h
  split at h
  · simp at h
  · split_ifs at h <;> exact scan_number_is_int h

theorem fscanf_vars_is_int (fp : List Char) (vars : stock_row) (h : row_is_int vars) :
    row_is_int (fscanf_d_d_d fp vars).2.1 := by
  obtain ⟨h1, h2, h3⟩ := h
  unfold fscanf_d_d_d
  split
  · exact ⟨h1, h2, h3⟩
  · exact ⟨h1, h2, h3⟩
  · rename_i x rest1 hx
    have ix := scan_d_is_int hx
    split
    · exact ⟨ix, h2, h3⟩
    · exact ⟨ix, h2, h3⟩
    · rename_i y rest2 hy
      have iy := scan_d_is_int hy
      split
      · exact ⟨ix, iy, h3⟩
      · exact ⟨ix, iy, h3⟩
      · rename_i z rest3 hz
        exact ⟨ix, iy, scan_d_is_int hz⟩

theorem load_loop_invariant (fuel : Nat) :
    ∀ (g : globals) (vars : stock_row) (fp : List Char) (g1 : globals),
      load_loop fuel g vars fp = some g1 → row_is_int vars →
      g.total_stock_num = g.stock_list.length → (∀ r ∈ g.stock_list, row_is_int r) →
      g1.total_stock_num = g1.stock_list.length ∧ (∀ r ∈ g1.stock_list, row_is_int r) := by
  induction fuel with
  | zero => intro g vars fp g1 h; simp [load_loop] at h
  | succ f ih =>
    intro g vars fp g1 h hv hc hl
    unfold load_loop at h
    simp only at h
    split_ifs at h with hres
    · simp only [Option.some.injEq] at h
      subst h
      exact ⟨hc, hl⟩
    · have hv1 := fscanf_vars_is_int fp vars hv
      refine ih _ _ _ _ h hv1 ?_ ?_
      · simp [stock_add_to_list, hc]
      · intro r hr
        simp only [stock_add_to_list, List.mem_append, List.mem_singleton] at hr
        rcases hr with hr | hr
        · exact hl r hr
        · rw [hr]; exact hv1

/-- What `load_stock_to_memory` returns from the initial globals: the tree
built from an array of `int` rows that is in the order the sort leaves. -/
theorem load_result {fuel : Nat} {vars : stock_row} {fp : List Char} {g : globals}
    (h : load_stock_to_memory fuel initial_globals vars fp = some g)
    (hv : row_is_int vars) :
    ∃ arr : List stock_row,
      g = { total_stock_num := arr.length, stock_list := [],
            root := stock_arr_to_bst arr 0 ((arr.length : Int) - 1) }
        ∧ (∀ r ∈ arr, row_is_int r) ∧ List.Chain' le_by_less arr := by
  unfold load_stock_to_memory at h
  split at h
  · simp at h
  · rename_i g1 hg1
    obtain ⟨hc, hl⟩ := load_loop_invariant fuel _ _ _ _ hg1 hv rfl
      (by intro r hr; simp [initial_globals] at hr)
    unfold stock_list_to_bst at h
    rw [if_pos (by omega)] at h
    simp only [Option.some.injEq] at h
    have htake : g1.stock_list.take g1.total_stock_num = g1.stock_list := by
      rw [hc]; exact List.take_length _
    rw [htake] at h
    refine ⟨qsort less g1.stock_list, ?_, ?_, ?_⟩
    · rw [← h, qsort_length, hc]
    · intro r hr
      exact hl r ((qsort_perm less _).mem_iff.mp hr)
    · exact qsort_chain _

/-! ### What `buy` and `sell` keep -/

theorem task1.buy_shape (root : stock_link) (stock_id stock_num : Int) :
    shape (task1.buy root stock_id stock_num).2 = shape root := by
  induction root with
  | NULL => rfl
  | ptr item left right ihl ihr =>
    unfold task1.buy
    split_ifs <;> simp [shape, ihl, ihr]

theorem task1.sell_shape (root : stock_link) (stock_id stock_num : Int) :
    shape (task1.sell root stock_id stock_num).2 = shape root := by
  induction root with
  | NULL => rfl
  | ptr item left right ihl ihr =>
    unfold task1.sell
    split_ifs <;> simp [shape, ihl, ihr]

theorem task1.buy_ids (root : stock_link) (stock_id stock_num : Int) :
    ids (task1.buy root stock_id stock_num).2 = ids root := by
  induction root with
  | NULL => rfl
  | ptr item left right ihl ihr =>
    unfold ids at ihl ihr ⊢
    unfold task1.buy
    split_ifs <;> simp [items, ihl, ihr]

theorem task1.sell_ids (root : stock_link) (stock_id stock_num : Int) :
    ids (task1.sell root stock_id stock_num).2 = ids root := by
  induction root with
  | NULL => rfl
  | ptr item left right ihl ihr =>
    unfold ids at ihl ihr ⊢
    unfold task1.sell
    split_ifs <;> simp [items, ihl, ihr]

theorem task1.buy_fields_are_int (root : stock_link) (stock_id stock_num : Int)
    (h : fields_are_int root) : fields_are_int (task1.buy root stock_id stock_num).2 := by
  induction root with
  | NULL => exact h
  | ptr item left right ihl ihr =>
    obtain ⟨⟨h1, h2, h3⟩, hl, hr⟩ := h
    unfold task1.buy
    split_ifs
    · exact ⟨⟨h1, wrap32_is_int _, h3⟩, hl, hr⟩
    · exact ⟨⟨h1, h2, h3⟩, hl, hr⟩
    · exact ⟨⟨h1, h2, h3⟩, ihl hl, hr⟩
    · exact ⟨⟨h1, h2, h3⟩, hl, ihr hr⟩

theorem task1.sell_fields_are_int (root : stock_link) (stock_id stock_num : Int)
    (h : fields_are_int root) : fields_are_int (task1.sell root stock_id stock_num).2 := by
  induction root with
  | NULL => exact h
  | ptr item left right ihl ihr =>
    obtain ⟨⟨h1, h2, h3⟩, hl, hr⟩ := h
    unfold task1.sell
    split_ifs
    · exact ⟨⟨h1, wrap32_is_int _, h3⟩, hl, hr⟩
    · exact ⟨⟨h1, h2, h3⟩, ihl hl, hr⟩
    · exact ⟨⟨h1, h2, h3⟩, hl, ihr hr⟩

theorem task1.run_ledger_keeps (cmds : List ledger_cmd) :
    ∀ root : stock_link,
      shape (task1.run_ledger root cmds) = shape root
        ∧ ids (task1.run_ledger root cmds) = ids root
        ∧ (fields_are_int root → fields_are_int (task1.run_ledger root cmds))
        ∧ (Quiescent root → Quiescent (task1.run_ledger root cmds)) := by
  induction cmds with
  | nil => intro root; exact ⟨rfl, rfl, id, id⟩
  | cons c cs ih =>
    intro root
    cases c with
    | buy i n =>
      obtain ⟨a, b, c, d⟩ := ih (task1.buy root i n).2
      exact ⟨a.trans (task1.buy_shape _ _ _), b.trans (task1.buy_ids _ _ _),
        fun h => c (task1.buy_fields_are_int _ _ _ h),
        fun h => d (task1.buy_quiescent _ _ h)⟩
    | sell i n =>
      obtain ⟨a, b, c, d⟩ := ih (task1.sell root i n).2
      exact ⟨a.trans (task1.sell_shape _ _ _), b.trans (task1.sell_ids _ _ _),
        fun h => c (task1.sell_fields_are_int _ _ _ h),
        fun h => d (task1.sell_quiescent _ _ h)⟩

theorem fields_are_int_iff (t : stock_link) :
    fields_are_int t ↔ ∀ it ∈ items t, row_is_int (row_of it) := by
  induction t with
  | NULL => simp [fields_are_int, items]
  | ptr item left right ihl ihr =>
    simp only [fields_are_int, items, List.mem_append, List.mem_cons, ihl, ihr]
    constructor
    · rintro ⟨h1, h2, h3⟩ it (h | h | h)
      · exact h2 it h
      · rw [h]; exact h1
      · exact h3 it h
    · intro h
      exact ⟨h item (Or.inr (Or.inl rfl)), fun it hit => h it (Or.inl hit),
        fun it hit => h it (Or.inr (Or.inr hit))⟩

theorem ids_eq_map_rows (t : stock_link) : ids t = (rows t).map stock_row.stock_id := by
  simp [ids, rows, List.map_map, Function.comp_def, row_of]

theorem chain_rows_iff_ids (t : stock_link) :
    List.Chain' le_by_less (rows t)
      ↔ List.Chain' (fun a b : Int => wrap32 (a - b) ≤ 0) (ids t) := by
  rw [ids_eq_map_rows, List.chain'_map]
  rfl

/-! ### The text of `show` and its buffer -/

theorem task1.inorder_some (MAXLINE : Nat) (root : stock_link) :
    ∀ stocks out : List Char, task1.inorder MAXLINE stocks root = some out →
      out = stocks ++ show_text root := by
  induction root with
  | NULL =>
    intro stocks out h
    simp only [task1.inorder, Option.some.injEq] at h
    simp [show_text, items, h]
  | ptr item left right ihl ihr =>
    intro stocks out h
    unfold task1.inorder at h
    split at h
    · simp at h
    · rename_i s1 h1
      split at h
      · simp at h
      · rename_i s2 h2
        have e1 := ihl _ _ h1
        have e3 := ihr _ _ h
        unfold strcat at h2
        split_ifs at h2
        simp only [Option.some.injEq] at h2
        rw [e3, ← h2, e1]
        simp [show_text, items, List.flatMap_append]

theorem task1.inorder_fits (MAXLINE : Nat) (root : stock_link) :
    ∀ stocks : List Char, stocks.length + (show_text root).length + 1 ≤ MAXLINE →
      task1.inorder MAXLINE stocks root = some (stocks ++ show_text root) := by
  induction root with
  | NULL => intro stocks _; simp [task1.inorder, show_text, items]
  | ptr item left right ihl ihr =>
    intro stocks h
    have hlen : (show_text (stock_link.ptr item left right)).length
        = (show_text left).length + (sprintf_item item).length + (show_text right).length := by
      simp [show_text, items, List.flatMap_append, Nat.add_assoc]
    rw [hlen] at h
    unfold task1.inorder
    rw [ihl stocks (by omega)]
    simp only [strcat]
    rw [if_pos (by simp only [List.length_append]; omega)]
    simp only
    rw [ihr _ (by simp only [List.length_append]; omega)]
    simp [show_text, items, List.flatMap_append]

theorem task1.show_eq (MAXLINE : Nat) (root : stock_link) :
    task1.show_ MAXLINE root
      = if (show_text root).length + 2 ≤ MAXLINE then some (show_text root ++ ['\n'])
        else none := by
  unfold task1.show_
  by_cases hfit : (show_text root).length + 2 ≤ MAXLINE
  · rw [if_pos hfit, task1.inorder_fits MAXLINE root [] (by simp; omega)]
    simp only [List.nil_append, strcat, List.length_singleton]
    rw [if_pos (by omega)]
  · rw [if_neg hfit]
    split
    · rfl
    · rename_i stocks h
      have e := task1.inorder_some MAXLINE root [] stocks h
      simp only [List.nil_append] at e
      subst e
      simp only [strcat, List.length_singleton]
      rw [if_neg (by omega)]

theorem task2.reader_enter_quiescent (item : STOCK_ITEM)
    (h : item.stock_readcnt = 0 ∧ item.mutex = 1 ∧ item.writer = 1) :
    task2.reader_enter item = some { item with stock_readcnt := 1, writer := 0 } := by
  obtain ⟨h1, h2, h3⟩ := h
  cases item
  simp only at h1 h2 h3
  subst h1 h2 h3
  rfl

theorem task2.reader_exit_entered (item : STOCK_ITEM)
    (h : item.stock_readcnt = 0 ∧ item.mutex = 1 ∧ item.writer = 1) :
    task2.reader_exit { item with stock_readcnt := 1, writer := 0 } = some item := by
  obtain ⟨h1, h2, h3⟩ := h
  cases item
  simp only at h1 h2 h3
  subst h1 h2 h3
  rfl

theorem task2.inorder_eq_task1 (MAXLINE : Nat) (root : stock_link) (hq : Quiescent root) :
    ∀ stocks : List Char,
      task2.inorder MAXLINE stocks root
        = (task1.inorder MAXLINE stocks root).map fun out => (out, root) := by
  induction root with
  | NULL => intro stocks; rfl
  | ptr item left right ihl ihr =>
    intro stocks
    obtain ⟨hi, hl, hr⟩ := hq
    unfold task2.inorder task1.inorder
    rw [ihl hl]
    cases h1 : task1.inorder MAXLINE stocks left with
    | none => rfl
    | some s1 =>
      simp only [Option.map_some']
      rw [task2.reader_enter_quiescent item hi]
      simp only
      have hs : sprintf_item { item with stock_readcnt := 1, writer := 0 }
          = sprintf_item item := rfl
      rw [hs]
      cases h2 : strcat MAXLINE s1 (sprintf_item item) with
      | none => rfl
      | some s2 =>
        simp only
        rw [task2.reader_exit_entered item hi, ihr hr]
        cases h3 : task1.inorder MAXLINE s2 right with
        | none => rfl
        | some s3 => rfl

theorem task2.show_eq_task1 (MAXLINE : Nat) (root : stock_link) (hq : Quiescent root) :
    task2.show_ MAXLINE root
      = (task1.show_ MAXLINE root).map fun out => (out, root) := by
  unfold task2.show_ task1.show_
  rw [task2.inorder_eq_task1 MAXLINE root hq]
  cases task1.inorder MAXLINE [] root with
  | none => rfl
  | some stocks =>
    simp only [Option.map_some']
    cases strcat MAXLINE stocks ['\n'] with
    | none => rfl
    | some out => rfl

theorem print_nat_length_pos (n : Nat) : 1 ≤ (print_nat n).length := by
  obtain ⟨d, ds, h, _⟩ := print_nat_head n
  rw [h]; simp

theorem print_d_length_pos (x : Int) : 1 ≤ (print_d x).length := by
  unfold print_d
  split_ifs
  · simp
  · exact print_nat_length_pos _

theorem sprintf_item_length (item : STOCK_ITEM) : 6 ≤ (sprintf_item item).length := by
  have h1 := print_d_length_pos item.stock_id
  have h2 := print_d_length_pos item.left_stock
  have h3 := print_d_length_pos item.stock_price
  simp only [sprintf_item, List.length_append, List.length_cons, List.length_nil]
  omega

theorem flatMap_sprintf_length (its : List STOCK_ITEM) :
    6 * its.length ≤ (its.flatMap sprintf_item).length := by
  induction its with
  | nil => simp
  | cons it its ih =>
    have := sprintf_item_length it
    simp only [List.flatMap_cons, List.length_append, List.length_cons]
    omega

theorem show_text_length_built (arr : List stock_row) :
    6 * arr.length
      ≤ (show_text (stock_arr_to_bst arr 0 ((arr.length : Int) - 1))).length := by
  have := flatMap_sprintf_length (items (stock_arr_to_bst arr 0 ((arr.length : Int) - 1)))
  rw [items_stock_arr_to_bst_all, List.length_map] at this
  unfold show_text
  rw [items_stock_arr_to_bst_all]
  exact this

theorem zero_rows_length (n : Nat) : (zero_rows n).length = n := by
  unfold zero_rows
  rw [List.length_map, List.length_range]

theorem task1.show_overflows (n MAXLINE : Nat) (h : MAXLINE < 6 * n + 2) :
    task1.show_ MAXLINE (stock_arr_to_bst (zero_rows n) 0 ((n : Int) - 1)) = none := by
  have hl := show_text_length_built (zero_rows n)
  rw [zero_rows_length] at hl
  rw [task1.show_eq, if_neg (by omega)]

theorem zero_rows_ids_sorted (n : Nat) :
    List.Sorted (fun a b : Int => a < b)
      (ids (stock_arr_to_bst (zero_rows n) 0 ((n : Int) - 1))) := by
  have h := rows_stock_arr_to_bst_all (zero_rows n)
  rw [zero_rows_length] at h
  rw [ids_eq_map_rows, h]
  unfold zero_rows
  rw [List.map_map]
  unfold List.Sorted
  rw [List.pairwise_map]
  exact (List.pairwise_lt_range n).imp (fun {a b} hab => by
    simp only [Function.comp, Int.ofNat_eq_coe]; omega)

theorem items_sorted_of_ids {root : stock_link}
    (h : List.Sorted (fun a b : Int => a < b) (ids root)) :
    List.Sorted (fun a b : STOCK_ITEM => a.stock_id ≤ b.stock_id) (items root) := by
  unfold ids List.Sorted at h
  rw [List.pairwise_map] at h
  exact h.imp (fun {a b} hab => le_of_lt hab)

/-! ### Where the index is ordered and the search is exact

For ids that lie within `2^30` of zero the comparator does not overflow: the
loaded index is then in ascending order, and on an index in ascending order
the search loop finds an id exactly when the index holds it. -/

theorem chain_ids_le_of_close (l : List Int) (hclose : ∀ i ∈ l, close_id i)
    (hc : List.Chain' (fun a b : Int => wrap32 (a - b) ≤ 0) l) :
    List.Chain' (fun a b : Int => a ≤ b) l := by
  rw [List.Chain'.iff_mem] at hc
  refine hc.imp ?_
  rintro a b ⟨ha, hb, hab⟩
  have h1 := hclose a ha
  have h2 := hclose b hb
  unfold close_id at h1 h2
  unfold wrap32 at hab
  omega

theorem loaded_ids_ascending {fuel : Nat} {vars : stock_row} {fp : List Char} {g : globals}
    (h : load_stock_to_memory fuel initial_globals vars fp = some g)
    (hv : row_is_int vars) (hclose : ∀ i ∈ ids g.root, close_id i)
    (hnd : (ids g.root).Nodup) :
    List.Sorted (fun a b : Int => a < b) (ids g.root) := by
  obtain ⟨arr, hg, _, hchain⟩ := load_result h hv
  subst hg
  simp only at hclose hnd ⊢
  have hc1 := (chain_rows_iff_ids _).mp (by rw [rows_stock_arr_to_bst_all]; exact hchain)
  have hc2 := chain_ids_le_of_close _ hclose hc1
  have hp : List.Pairwise (fun a b : Int => a ≤ b)
      (ids (stock_arr_to_bst arr 0 ((arr.length : Int) - 1))) :=
    List.chain'_iff_pairwise.mp hc2
  unfold List.Sorted
  exact (hp.and hnd).imp (fun {a b} hab => lt_of_le_of_ne hab.1 hab.2)

theorem search_none_of_not_mem (root : stock_link) (i : Int) (h : i ∉ ids root) :
    search root i = none := by
  induction root with
  | NULL => rfl
  | ptr item left right ihl ihr =>
    simp only [ids, items, List.map_append, List.map_cons, List.mem_append, List.mem_cons,
      not_or] at h ihl ihr
    unfold search
    rw [if_neg (fun e => h.2.1 e.symm)]
    split_ifs
    · exact ihl h.1
    · exact ihr h.2.2

theorem search_some_of_sorted (root : stock_link)
    (hs : List.Sorted (fun a b : Int => a < b) (ids root)) (i : Int) (h : i ∈ ids root) :
    ∃ it, search root i = some it ∧ it ∈ items root ∧ it.stock_id = i := by
  induction root with
  | NULL => simp [ids, items] at h
  | ptr item left right ihl ihr =>
    simp only [ids, items, List.map_append, List.map_cons, List.mem_append, List.mem_cons]
      at h hs ihl ihr ⊢
    unfold List.Sorted at hs ihl ihr
    rw [List.pairwise_append] at hs
    obtain ⟨hl, hr, hlr⟩ := hs
    rw [List.pairwise_cons] at hr
    unfold search
    by_cases h1 : item.stock_id = i
    · rw [if_pos h1]
      exact ⟨item, rfl, Or.inr (Or.inl rfl), h1⟩
    · rw [if_neg h1]
      rcases h with h | h | h
      · have hlt : i < item.stock_id := hlr i h item.stock_id (List.mem_cons_self _ _)
        rw [if_pos hlt]
        obtain ⟨it, a, b, c⟩ := ihl hl h
        exact ⟨it, a, Or.inl b, c⟩
      · exact absurd h.symm h1
      · have hgt : item.stock_id < i := hr.1 i h
        rw [if_neg (by omega)]
        obtain ⟨it, a, b, c⟩ := ihr hr.2 h
        exact ⟨it, a, Or.inr (Or.inr b), c⟩

theorem execute_command_unknown_verb (MAXLINE : Nat) (vars : command_vars)
    (root : stock_link) (command : List Char)
    (h1 : (sscanf_s_d_d command vars).order ≠ "show".toList)
    (h2 : (sscanf_s_d_d command vars).order ≠ "buy".toList)
    (h3 : (sscanf_s_d_d command vars).order ≠ "sell".toList) :
    task1.execute_command MAXLINE vars root command = some (MSG_INVALID, root)
      ∧ task2.execute_command MAXLINE vars root command = some (MSG_INVALID, root) := by
  unfold task1.execute_command task2.execute_command
  simp only
  rw [if_neg h1, if_neg h2, if_neg h3, if_neg h1, if_neg h2, if_neg h3]
  exact ⟨rfl, rfl⟩

/-! ### What a command leaves as it was -/

theorem task2.execute_command_eq_task1 (MAXLINE : Nat) (vars : command_vars)
    (root : stock_link) (command : List Char) (hq : Quiescent root) :
    task2.execute_command MAXLINE vars root command
      = task1.execute_command MAXLINE vars root command := by
  unfold task2.execute_command task1.execute_command
  simp only
  split_ifs
  · rw [task2.show_eq_task1 MAXLINE root hq]
    cases task1.show_ MAXLINE root <;> rfl
  · exact task2.buy_eq_task1 _ _ hq
  · exact task2.sell_eq_task1 _ _ hq
  · rfl

theorem task2.inorder_print_eq_task1 (root : stock_link) (hq : Quiescent root) :
    ∀ fp : List Char,
      task2.inorder_print root fp = some (task1.inorder_print root fp, root) := by
  induction root with
  | NULL => intro fp; rfl
  | ptr item left right ihl ihr =>
    intro fp
    obtain ⟨hi, hl, hr⟩ := hq
    unfold task2.inorder_print task1.inorder_print
    rw [ihl hl]
    simp only
    rw [task2.reader_enter_quiescent item hi]
    simp only
    rw [task2.reader_exit_entered item hi]
    simp only
    have hs : fprintf_item { item with stock_readcnt := 1, writer := 0 }
        = fprintf_item item := rfl
    rw [hs, ihr hr]

theorem task2.update_file_eq_task1 (root : stock_link) (hq : Quiescent root) :
    task2.update_file 1 root = some (1, task1.update_file root, root) := by
  unfold task2.update_file task1.update_file
  simp only [task2.P, task2.V]
  rw [task2.inorder_print_eq_task1 root hq]
  rfl

/-- On a quiescent tree, with the file semaphore free, the two variants treat
alike every line that does not start with `exit` and the line `exit` itself:
the same tree, the same decision to persist and close, the same file, and the
same response when the connection stays open. -/
theorem thread_line_eq_main_line (MAXLINE : Nat) (vars : command_vars) (root : stock_link)
    (command : List Char) (hq : Quiescent root)
    (hc : command.take 4 ≠ "exit".toList ∨ command = "exit\n".toList) :
    (task2.thread_line MAXLINE vars 1 root command).map
        (fun r => (r.root, r.closed, r.file, if r.closed then [] else r.response))
      = (task1.main_line MAXLINE vars root command).map
        (fun r => (r.root, r.closed, r.file, if r.closed then [] else r.response)) := by
  unfold task2.thread_line task1.main_line
  by_cases he : command = "exit\n".toList
  · subst he
    rw [if_pos rfl, if_pos (by decide), task2.update_file_eq_task1 root hq]
    rfl
  · have h4 : command.take 4 ≠ "exit".toList := by
      rcases hc with h | h
      · exact h
      · exact absurd h he
    rw [if_neg he, if_neg h4, task2.execute_command_eq_task1 MAXLINE vars root command hq]

/-! ### The connection queue -/

theorem tmod_natCast (m N : Nat) : Int.tmod (m : Int) (N : Int) = ((m % N : Nat) : Int) := by
  rw [Int.tmod_eq_emod (Int.natCast_nonneg m) (Int.natCast_nonneg N)]
  exact (Int.natCast_mod m N).symm

theorem task2.buf_index_nat (sp : sbuf_t) (m N : Nat) (hn : sp.n = N)
    (hl : sp.buf.length = N) (hN : 0 < N) (hm : (m : Int) ≤ 2147483647) :
    task2.buf_index sp (wrap32 (m : Int)) = some (m % N) := by
  have hw : wrap32 (m : Int) = m := by unfold wrap32; omega
  have hlt : m % N < N := Nat.mod_lt _ hN
  have hn0 : ¬ ((N : Int) = 0) := by omega
  unfold task2.buf_index
  rw [hw, hn, if_neg hn0, tmod_natCast, Int.toNat_ofNat, hl,
    if_pos ⟨Int.natCast_nonneg _, hlt⟩]

theorem mod_ne_of_lt {N a j k : Nat} (hj : j < k) (hk : k < N) :
    (a + j) % N ≠ (a + k) % N := by
  intro h
  have h1 : Nat.ModEq N (a + j) (a + k) := h
  have h2 : Nat.ModEq N j k := Nat.ModEq.add_left_cancel' a h1
  unfold Nat.ModEq at h2
  rw [Nat.mod_eq_of_lt (by omega), Nat.mod_eq_of_lt hk] at h2
  omega

theorem task2.sbuf_insert_eq (sp : sbuf_t) (item : Int) (k : Nat) (hs : 0 < sp.slots)
    (hm : sp.mutex = 1) (hk : task2.buf_index sp (wrap32 (sp.rear + 1)) = some k) :
    task2.sbuf_insert sp item
      = some { sp with
          buf := sp.buf.set k item, rear := wrap32 (sp.rear + 1),
          mutex := 1, slots := sp.slots - 1, items := sp.items + 1 } := by
  unfold task2.sbuf_insert
  have h1 : task2.P sp.slots = some (sp.slots - 1) := by
    unfold task2.P; rw [if_neg (by omega)]
  have h2 : task2.P sp.mutex = some 0 := by rw [hm]; rfl
  rw [h1, h2, hk]
  rfl

theorem task2.sbuf_remove_eq (sp : sbuf_t) (k : Nat) (hs : 0 < sp.items)
    (hm : sp.mutex = 1) (hk : task2.buf_index sp (wrap32 (sp.front + 1)) = some k) :
    task2.sbuf_remove sp
      = some (sp.buf.getD k 0,
          { sp with
            front := wrap32 (sp.front + 1),
            mutex := 1, slots := sp.slots + 1, items := sp.items - 1 }) := by
  unfold task2.sbuf_remove
  have h1 : task2.P sp.items = some (sp.items - 1) := by
    unfold task2.P; rw [if_neg (by omega)]
  have h2 : task2.P sp.mutex = some 0 := by rw [hm]; rfl
  rw [h1, h2, hk]
  rfl

theorem task2.sbuf_insert_step {N : Nat} {pending : List Int} {sp : sbuf_t} (item : Int)
    (h : sbuf_inv N pending sp) (hs : 0 < sp.slots) (hr : sp.rear < INT_MAX) :
    ∃ sp1, task2.sbuf_insert sp item = some sp1 ∧ sbuf_inv N (pending ++ [item]) sp1
      ∧ sp1.rear = sp.rear + 1 ∧ sp1.front = sp.front := by
  obtain ⟨hn, hl, hm, hf, _, hd, hi, hsi, hb⟩ := h
  unfold INT_MAX at hr
  have hN : 0 < N := by omega
  have hlen : pending.length < N := by omega
  have hrear : sp.rear + 1 = ((sp.front.toNat + 1 + pending.length : Nat) : Int) := by
    push_cast; omega
  have hidx := task2.buf_index_nat sp (sp.front.toNat + 1 + pending.length) N hn hl hN
    (by rw [← hrear]; omega)
  rw [← hrear] at hidx
  have hw : wrap32 (sp.rear + 1) = sp.rear + 1 := by unfold wrap32; omega
  refine ⟨_, task2.sbuf_insert_eq sp item _ hs hm hidx, ?_, hw, rfl⟩
  refine ⟨hn, ?_, rfl, hf, ?_, ?_, ?_, ?_, ?_⟩
  · simp [hl]
  · simp only [hw]; unfold INT_MAX; omega
  · simp only [hw, List.length_append, List.length_singleton]; push_cast; omega
  · simp only [List.length_append, List.length_singleton]; omega
  · simp only; omega
  · intro j hj
    simp only [List.length_append, List.length_singleton] at hj
    by_cases hjl : j < pending.length
    · rw [List.getElem?_set_ne (mod_ne_of_lt hjl hlen).symm, hb j hjl,
        List.getElem?_append_left hjl]
    · have hje : j = pending.length := by omega
      subst hje
      have hlt : (sp.front.toNat + 1 + pending.length) % N < sp.buf.length := by
        rw [hl]; exact Nat.mod_lt _ hN
      rw [List.getElem?_set_self hlt, List.getElem?_append_right (le_refl _)]
      simp

theorem task2.sbuf_remove_step {N : Nat} {item : Int} {pending : List Int} {sp : sbuf_t}
    (h : sbuf_inv N (item :: pending) sp) :
    ∃ sp1, task2.sbuf_remove sp = some (item, sp1) ∧ sbuf_inv N pending sp1
      ∧ sp1.rear = sp.rear ∧ sp1.front = sp.front + 1 := by
  obtain ⟨hn, hl, hm, hf, hr, hd, hi, hsi, hb⟩ := h
  unfold INT_MAX at hr
  simp only [List.length_cons] at hd hi hb
  push_cast at hd
  have hN : 0 < N := by omega
  have hfront : sp.front + 1 = ((sp.front.toNat + 1 + 0 : Nat) : Int) := by
    push_cast; omega
  have hidx := task2.buf_index_nat sp (sp.front.toNat + 1 + 0) N hn hl hN
    (by rw [← hfront]; omega)
  rw [← hfront] at hidx
  have hw : wrap32 (sp.front + 1) = sp.front + 1 := by unfold wrap32; omega
  have h0 := hb 0 (by omega)
  simp only [List.getElem?_cons_zero] at h0
  have hget : sp.buf.getD ((sp.front.toNat + 1 + 0) % N) 0 = item := by
    rw [List.getD_eq_getElem?_getD, h0]; rfl
  have heq := task2.sbuf_remove_eq sp _ (by omega) hm hidx
  rw [hget] at heq
  refine ⟨_, heq, ?_, rfl, hw⟩
  refine ⟨hn, hl, rfl, ?_, hr, ?_, ?_, ?_, ?_⟩
  · simp only [hw]; omega
  · simp only [hw]; omega
  · simp only; omega
  · simp only; omega
  · intro j hj
    have := hb (j + 1) (by omega)
    simp only [List.getElem?_cons_succ] at this
    rw [← this]
    simp only [hw]
    have e : (sp.front + 1).toNat = sp.front.toNat + 1 := by omega
    rw [e]
    congr 2
    omega


theorem sbuf_inv_items_pos {N : Nat} {pending : List Int} {sp : sbuf_t}
    (h : sbuf_inv N pending sp) (hi : 0 < sp.items) :
    ∃ item rest, pending = item :: rest := by
  obtain ⟨_, _, _, _, _, _, hi1, _, _⟩ := h
  cases pending with
  | nil => simp at hi1; omega
  | cons item rest => exact ⟨item, rest, rfl⟩

theorem fifo_run_nil (pending : List Int) : fifo_run pending [] = ([], pending) := by
  cases pending <;> rfl

theorem fifo_run_insert (pending : List Int) (item : Int) (ops : List sbuf_op) :
    fifo_run pending (sbuf_op.insert item :: ops) = fifo_run (pending ++ [item]) ops := by
  cases pending <;> rfl

/-- The code refines the first-in first-out list: from a state that holds
`pending`, a guarded sequence whose inserts do not take `rear` past `INT_MAX`
runs to the end, returns what the list returns and holds what the list
holds. -/
theorem task2.sbuf_run_refines (ops : List sbuf_op) :
    ∀ (N : Nat) (pending : List Int) (sp : sbuf_t), sbuf_inv N pending sp →
      sp.rear + (inserted ops).length ≤ INT_MAX → task2.guarded sp ops = true →
      ∃ sp1, task2.sbuf_run sp ops = some ((fifo_run pending ops).1, sp1)
        ∧ sbuf_inv N (fifo_run pending ops).2 sp1
        ∧ sp1.rear = sp.rear + (inserted ops).length
        ∧ pending ++ inserted ops = (fifo_run pending ops).1 ++ (fifo_run pending ops).2 := by
  induction ops with
  | nil =>
    intro N pending sp h _ _
    rw [fifo_run_nil]
    exact ⟨sp, rfl, h, by simp [inserted], by simp [inserted]⟩
  | cons op ops ih =>
    intro N pending sp h hr hg
    cases op with
    | insert item =>
      simp only [inserted, List.length_cons] at hr
      push_cast at hr
      simp only [task2.guarded, Bool.and_eq_true, decide_eq_true_eq] at hg
      obtain ⟨sp1, e1, inv1, r1, _⟩ := task2.sbuf_insert_step item h hg.1 (by omega)
      have hg1 := hg.2
      rw [e1] at hg1
      obtain ⟨sp2, e2, inv2, r2, a2⟩ := ih N _ sp1 inv1 (by rw [r1]; omega) hg1
      rw [fifo_run_insert]
      refine ⟨sp2, ?_, inv2, ?_, ?_⟩
      · simp only [task2.sbuf_run, e1]; exact e2
      · simp only [inserted, List.length_cons, r2, r1]; push_cast; omega
      · simp only [inserted]
        rw [← a2]; simp
    | remove =>
      simp only [inserted] at hr
      simp only [task2.guarded, Bool.and_eq_true, decide_eq_true_eq] at hg
      obtain ⟨item, rest, hp⟩ := sbuf_inv_items_pos h hg.1
      subst hp
      obtain ⟨sp1, e1, inv1, r1, _⟩ := task2.sbuf_remove_step h
      have hg1 := hg.2
      rw [e1] at hg1
      obtain ⟨sp2, e2, inv2, r2, a2⟩ := ih N _ sp1 inv1 (by rw [r1]; exact hr) hg1
      refine ⟨sp2, ?_, inv2, ?_, ?_⟩
      · simp only [task2.sbuf_run, e1, e2, fifo_run]
      · simp only [inserted, r2, r1]
      · simp only [inserted, fifo_run, List.cons_append]
        rw [a2]

theorem task2.sbuf_init_inv (N : Nat) : sbuf_inv N [] (task2.sbuf_init (N : Int)) := by
  refine ⟨rfl, ?_, rfl, le_refl _, ?_, rfl, rfl, ?_, ?_⟩
  · simp [task2.sbuf_init]
  · show (0 : Int) ≤ INT_MAX
    decide
  · simp [task2.sbuf_init]
  · intro j hj; simp at hj

theorem task2.guarded_take (ops : List sbuf_op) :
    ∀ (k : Nat) (sp : sbuf_t), task2.guarded sp ops = true →
      task2.guarded sp (ops.take k) = true := by
  induction ops with
  | nil => intro k sp _; simp [task2.guarded]
  | cons op ops ih =>
    intro k sp h
    cases k with
    | zero => simp [task2.guarded]
    | succ k =>
      cases op with
      | insert item =>
        simp only [task2.guarded, Bool.and_eq_true, List.take_succ_cons] at h ⊢
        refine ⟨h.1, ?_⟩
        cases hi : task2.sbuf_insert sp item with
        | none => rfl
        | some sp1 => rw [hi] at h; exact ih k sp1 h.2
      | remove =>
        simp only [task2.guarded, Bool.and_eq_true, List.take_succ_cons] at h ⊢
        refine ⟨h.1, ?_⟩
        cases hi : task2.sbuf_remove sp with
        | none => rfl
        | some r => rw [hi] at h; exact ih k r.2 h.2

theorem inserted_take_length (ops : List sbuf_op) :
    ∀ k : Nat, (inserted (ops.take k)).length ≤ (inserted ops).length := by
  induction ops with
  | nil => intro k; simp [inserted]
  | cons op ops ih =>
    intro k
    cases k with
    | zero => simp [inserted]
    | succ k =>
      cases op with
      | insert item => simp only [List.take_succ_cons, inserted, List.length_cons]; have := ih k; omega
      | remove => simp only [List.take_succ_cons, inserted]; exact ih k


theorem task2.pairs_run (item : Int) (rest : List sbuf_op) (N : Nat) (hN : 0 < N) (k : Nat) :
    ∀ sp : sbuf_t, sbuf_inv N [] sp → sp.rear + k ≤ INT_MAX →
      ∃ sp1, sbuf_inv N [] sp1 ∧ sp1.rear = sp.rear + k
        ∧ task2.guarded sp (insert_remove_pairs k item ++ rest) = task2.guarded sp1 rest
        ∧ (task2.sbuf_run sp1 rest = none →
            task2.sbuf_run sp (insert_remove_pairs k item ++ rest) = none) := by
  induction k with
  | zero =>
    intro sp h _
    exact ⟨sp, h, by simp, rfl, fun e => e⟩
  | succ k ih =>
    intro sp h hr
    push_cast at hr
    have hslots : 0 < sp.slots := by
      obtain ⟨_, _, _, _, _, _, hi, hsi, _⟩ := h
      simp at hi; omega
    obtain ⟨sp1, e1, inv1, r1, _⟩ := task2.sbuf_insert_step item h hslots
      (by unfold INT_MAX at hr ⊢; omega)
    simp only [List.nil_append] at inv1
    have hitems : 0 < sp1.items := by
      obtain ⟨_, _, _, _, _, _, hi, _, _⟩ := inv1
      simp at hi; omega
    obtain ⟨sp2, e2, inv2, r2, _⟩ := task2.sbuf_remove_step inv1
    obtain ⟨sp3, inv3, r3, g3, n3⟩ := ih sp2 inv2 (by rw [r2, r1]; omega)
    refine ⟨sp3, inv3, by rw [r3, r2, r1]; push_cast; omega, ?_, ?_⟩
    · rw [← g3]
      show task2.guarded sp (sbuf_op.insert item :: sbuf_op.remove ::
        (insert_remove_pairs k item ++ rest)) = _
      simp only [task2.guarded, e1, e2, hslots, hitems, decide_True, Bool.true_and]
    · intro hnone
      have := n3 hnone
      show task2.sbuf_run sp (sbuf_op.insert item :: sbuf_op.remove ::
        (insert_remove_pairs k item ++ rest)) = none
      simp only [task2.sbuf_run, e1, e2, this]

theorem task2.sbuf_insert_past_int_max (sp : sbuf_t) (item : Int) (h : sbuf_inv 3 [] sp)
    (hr : sp.rear = 2147483647) : task2.sbuf_insert sp item = none := by
  obtain ⟨hn, _, hm, _, _, _, hi, hsi, _⟩ := h
  have hs : sp.slots = 3 := by simp at hi; omega
  have hidx : task2.buf_index sp (wrap32 (sp.rear + 1)) = none := by
    unfold task2.buf_index
    rw [hr, hn]
    have h1 : ¬ (((3 : Nat) : Int) = 0) := by decide
    have h2 : ¬ (0 ≤ (wrap32 (2147483647 + 1)).tmod ((3 : Nat) : Int)) := by decide
    rw [if_neg h1, if_neg (fun h => h2 h.1)]
  unfold task2.sbuf_insert
  rw [hs, hm, hidx]
  rfl

/-! ### The reader and writer protocols -/

/-- Moving one entry of a list changes two counts by one. -/
theorem count_set_add (l : List rw_pc) (i : Nat) (a b c : rw_pc) (h : l[i]? = some a) :
    (l.set i b).count c + (if c = a then 1 else 0) = l.count c + (if c = b then 1 else 0) := by
  induction l generalizing i with
  | nil => simp at h
  | cons x xs ih =>
    cases i with
    | zero =>
      simp only [List.getElem?_cons_zero, Option.some.injEq] at h
      subst h
      simp only [List.set_cons_zero, List.count_cons, beq_iff_eq]
      by_cases h1 : c = b
      · subst h1
        by_cases h2 : c = x
        · subst h2
          simp
        · have h3 : ¬ x = c := fun e => h2 e.symm
          simp [h2, h3]
      · have h4 : ¬ b = c := fun e => h1 e.symm
        by_cases h2 : c = x
        · subst h2
          simp [h1, h4]
        · have h3 : ¬ x = c := fun e => h2 e.symm
          simp [h1, h2, h3, h4]
    | succ k =>
      simp only [List.getElem?_cons_succ] at h
      have := ih k h
      simp only [List.set_cons_succ, List.count_cons]
      omega

/-- A step of one thread moves it from one place to another. -/
theorem at_pc_set (s s1 : rw_state) (i : Nat) (a b : rw_pc) (h : s.pcs[i]? = some a)
    (hs : s1.pcs = s.pcs.set i b) (c : rw_pc) :
    at_pc s1 c + (if c = a then 1 else 0) = at_pc s c + (if c = b then 1 else 0) := by
  unfold at_pc
  rw [hs]
  exact count_set_add s.pcs i a b c h

/-- Every atomic step keeps the invariant, when the threads are at most
`INT_MAX`. -/
theorem rw_step_inv (n : Nat) (hn : n ≤ 2147483647) (s s1 : rw_state) (i : Nat)
    (as_writer : Bool) (hinv : rw_inv n s) (h : task2.rw_step s i as_writer = some s1) :
    rw_inv n s1 := by
  obtain ⟨i0, i1, i2, i3, i4, i5, i6⟩ := hinv
  obtain ⟨m1, w1, r1, p1⟩ := s1
  unfold task2.rw_step at h
  cases hp : s.pcs[i]? with
  | none => rw [hp] at h; simp at h
  | some a =>
    rw [hp] at h
    cases a with
    | idle =>
      cases as_writer with
      | true =>
        simp only [if_true] at h
        unfold task2.P at h
        by_cases hz : s.writer = 0
        · simp [hz] at h
        · simp [hz] at h
          obtain ⟨hm, hw, hr, hpc⟩ := h
          have hc := at_pc_set s ⟨m1, w1, r1, p1⟩ i rw_pc.idle rw_pc.writing hp hpc.symm
          have e0 := hc rw_pc.idle
          have e1 := hc rw_pc.r_has_mutex
          have e2 := hc rw_pc.r_counted
          have e3 := hc rw_pc.r_first
          have e4 := hc rw_pc.r_entering
          have e5 := hc rw_pc.reading
          have e6 := hc rw_pc.r_exit_mutex
          have e7 := hc rw_pc.r_uncounted
          have e8 := hc rw_pc.r_last
          have e9 := hc rw_pc.r_leaving
          have e10 := hc rw_pc.writing
          simp at e0 e1 e2 e3 e4 e5 e6 e7 e8 e9 e10
          clear hc hpc hp
          subst hm hw hr
          unfold rw_inv
          dsimp only
          rw [e1, e2, e3, e4, e5, e6, e7, e8, e9, e10]
          clear e1 e2 e3 e4 e5 e6 e7 e8 e9 e10
          refine ⟨?_, ?_, ?_, ?_, ?_, ?_, ?_⟩ <;> omega
      | false =>
        simp only [Bool.false_eq_true, if_false] at h
        unfold task2.P at h
        by_cases hz : s.mutex = 0
        · simp [hz] at h
        · simp [hz] at h
          obtain ⟨hm, hw, hr, hpc⟩ := h
          have hc := at_pc_set s ⟨m1, w1, r1, p1⟩ i rw_pc.idle rw_pc.r_has_mutex hp hpc.symm
          have e0 := hc rw_pc.idle
          have e1 := hc rw_pc.r_has_mutex
          have e2 := hc rw_pc.r_counted
          have e3 := hc rw_pc.r_first
          have e4 := hc rw_pc.r_entering
          have e5 := hc rw_pc.reading
          have e6 := hc rw_pc.r_exit_mutex
          have e7 := hc rw_pc.r_uncounted
          have e8 := hc rw_pc.r_last
          have e9 := hc rw_pc.r_leaving
          have e10 := hc rw_pc.writing
          simp at e0 e1 e2 e3 e4 e5 e6 e7 e8 e9 e10
          clear hc hpc hp
          subst hm hw hr
          unfold rw_inv
          dsimp only
          rw [e1, e2, e3, e4, e5, e6, e7, e8, e9, e10]
          clear e1 e2 e3 e4 e5 e6 e7 e8 e9 e10
          refine ⟨?_, ?_, ?_, ?_, ?_, ?_, ?_⟩ <;> omega
    | r_has_mutex =>
      simp only [Option.some.injEq, task2.V, rw_state.mk.injEq] at h
      obtain ⟨hm, hw, hr, hpc⟩ := h
      have hc := at_pc_set s ⟨m1, w1, r1, p1⟩ i rw_pc.r_has_mutex rw_pc.r_counted hp hpc.symm
      have e0 := hc rw_pc.idle
      have e1 := hc rw_pc.r_has_mutex
      have e2 := hc rw_pc.r_counted
      have e3 := hc rw_pc.r_first
      have e4 := hc rw_pc.r_entering
      have e5 := hc rw_pc.reading
      have e6 := hc rw_pc.r_exit_mutex
      have e7 := hc rw_pc.r_uncounted
      have e8 := hc rw_pc.r_last
      have e9 := hc rw_pc.r_leaving
      have e10 := hc rw_pc.writing
      simp at e0 e1 e2 e3 e4 e5 e6 e7 e8 e9 e10
      clear hc hpc hp
      have hb : is_int (s.stock_readcnt + 1) := by
        unfold is_int INT_MIN INT_MAX
        clear i3 i4 i5 i6
        omega
      rw [wrap32_of_is_int hb] at hr
      clear hb
      subst hm hw hr
      unfold rw_inv
      dsimp only
      rw [e0, e2, e3, e4, e5, e6, e7, e8, e9, e10]
      clear e0 e2 e3 e4 e5 e6 e7 e8 e9 e10
      refine ⟨?_, ?_, ?_, ?_, ?_, ?_, ?_⟩ <;> omega
    | r_counted =>
      simp only at h
      by_cases hz : s.stock_readcnt = 1
      · simp [hz] at h
        obtain ⟨hm, hw, hr, hpc⟩ := h
        have hc := at_pc_set s ⟨m1, w1, r1, p1⟩ i rw_pc.r_counted rw_pc.r_first hp hpc.symm
        have e0 := hc rw_pc.idle
        have e1 := hc rw_pc.r_has_mutex
        have e2 := hc rw_pc.r_counted
        have e3 := hc rw_pc.r_first
        have e4 := hc rw_pc.r_entering
        have e5 := hc rw_pc.reading
        have e6 := hc rw_pc.r_exit_mutex
        have e7 := hc rw_pc.r_uncounted
        have e8 := hc rw_pc.r_last
        have e9 := hc rw_pc.r_leaving
        have e10 := hc rw_pc.writing
        simp at e0 e1 e2 e3 e4 e5 e6 e7 e8 e9 e10
        clear hc hpc hp
        subst hm hw hr
        unfold rw_inv
        dsimp only
        rw [e0, e1, e3, e4, e5, e6, e7, e8, e9, e10]
        clear e0 e1 e3 e4 e5 e6 e7 e8 e9 e10
        refine ⟨?_, ?_, ?_, ?_, ?_, ?_, ?_⟩ <;> omega
      · simp [hz] at h
        obtain ⟨hm, hw, hr, hpc⟩ := h
        have hc := at_pc_set s ⟨m1, w1, r1, p1⟩ i rw_pc.r_counted rw_pc.r_entering hp hpc.symm
        have e0 := hc rw_pc.idle
        have e1 := hc rw_pc.r_has_mutex
        have e2 := hc rw_pc.r_counted
        have e3 := hc rw_pc.r_first
        have e4 := hc rw_pc.r_entering
        have e5 := hc rw_pc.reading
        have e6 := hc rw_pc.r_exit_mutex
        have e7 := hc rw_pc.r_uncounted
        have e8 := hc rw_pc.r_last
        have e9 := hc rw_pc.r_leaving
        have e10 := hc rw_pc.writing
        simp at e0 e1 e2 e3 e4 e5 e6 e7 e8 e9 e10
        clear hc hpc hp
        subst hm hw hr
        unfold rw_inv
        dsimp only
        rw [e0, e1, e3, e4, e5, e6, e7, e8, e9, e10]
        clear e0 e1 e3 e4 e5 e6 e7 e8 e9 e10
        refine ⟨?_, ?_, ?_, ?_, ?_, ?_, ?_⟩ <;> omega
    | r_first =>
      simp only at h
      unfold task2.P at h
      by_cases hz : s.writer = 0
      · simp [hz] at h
      · simp [hz] at h
        obtain ⟨hm, hw, hr, hpc⟩ := h
        have hc := at_pc_set s ⟨m1, w1, r1, p1⟩ i rw_pc.r_first rw_pc.r_entering hp hpc.symm
        have e0 := hc rw_pc.idle
        have e1 := hc rw_pc.r_has_mutex
        have e2 := hc rw_pc.r_counted
        have e3 := hc rw_pc.r_first
        have e4 := hc rw_pc.r_entering
        have e5 := hc rw_pc.reading
        have e6 := hc rw_pc.r_exit_mutex
        have e7 := hc rw_pc.r_uncounted
        have e8 := hc rw_pc.r_last
        have e9 := hc rw_pc.r_leaving
        have e10 := hc rw_pc.writing
        simp at e0 e1 e2 e3 e4 e5 e6 e7 e8 e9 e10
        clear hc hpc hp
        subst hm hw hr
        unfold rw_inv
        dsimp only
        rw [e0, e1, e2, e4, e5, e6, e7, e8, e9, e10]
        clear e0 e1 e2 e4 e5 e6 e7 e8 e9 e10
        refine ⟨?_, ?_, ?_, ?_, ?_, ?_, ?_⟩ <;> omega
    | r_entering =>
      simp only [Option.some.injEq, task2.V, rw_state.mk.injEq] at h
      obtain ⟨hm, hw, hr, hpc⟩ := h
      have hc := at_pc_set s ⟨m1, w1, r1, p1⟩ i rw_pc.r_entering rw_pc.reading hp hpc.symm
      have e0 := hc rw_pc.idle
      have e1 := hc rw_pc.r_has_mutex
      have e2 := hc rw_pc.r_counted
      have e3 := hc rw_pc.r_first
      have e4 := hc rw_pc.r_entering
      have e5 := hc rw_pc.reading
      have e6 := hc rw_pc.r_exit_mutex
      have e7 := hc rw_pc.r_uncounted
      have e8 := hc rw_pc.r_last
      have e9 := hc rw_pc.r_leaving
      have e10 := hc rw_pc.writing
      simp at e0 e1 e2 e3 e4 e5 e6 e7 e8 e9 e10
      clear hc hpc hp
      subst hm hw hr
      unfold rw_inv
      dsimp only
      rw [e0, e1, e2, e3, e5, e6, e7, e8, e9, e10]
      clear e0 e1 e2 e3 e5 e6 e7 e8 e9 e10
      refine ⟨?_, ?_, ?_, ?_, ?_, ?_, ?_⟩ <;> omega
    | reading =>
      simp only at h
      unfold task2.P at h
      by_cases hz : s.mutex = 0
      · simp [hz] at h
      · simp [hz] at h
        obtain ⟨hm, hw, hr, hpc⟩ := h
        have hc := at_pc_set s ⟨m1, w1, r1, p1⟩ i rw_pc.reading rw_pc.r_exit_mutex hp hpc.symm
        have e0 := hc rw_pc.idle
        have e1 := hc rw_pc.r_has_mutex
        have e2 := hc rw_pc.r_counted
        have e3 := hc rw_pc.r_first
        have e4 := hc rw_pc.r_entering
        have e5 := hc rw_pc.reading
        have e6 := hc rw_pc.r_exit_mutex
        have e7 := hc rw_pc.r_uncounted
        have e8 := hc rw_pc.r_last
        have e9 := hc rw_pc.r_leaving
        have e10 := hc rw_pc.writing
        simp at e0 e1 e2 e3 e4 e5 e6 e7 e8 e9 e10
        clear hc hpc hp
        subst hm hw hr
        unfold rw_inv
        dsimp only
        rw [e0, e1, e2, e3, e4, e6, e7, e8, e9, e10]
        clear e0 e1 e2 e3 e4 e6 e7 e8 e9 e10
        refine ⟨?_, ?_, ?_, ?_, ?_, ?_, ?_⟩ <;> omega
    | r_exit_mutex =>
      simp only [Option.some.injEq, task2.V, rw_state.mk.injEq] at h
      obtain ⟨hm, hw, hr, hpc⟩ := h
      have hc := at_pc_set s ⟨m1, w1, r1, p1⟩ i rw_pc.r_exit_mutex rw_pc.r_uncounted hp hpc.symm
      have e0 := hc rw_pc.idle
      have e1 := hc rw_pc.r_has_mutex
      have e2 := hc rw_pc.r_counted
      have e3 := hc rw_pc.r_first
      have e4 := hc rw_pc.r_entering
      have e5 := hc rw_pc.reading
      have e6 := hc rw_pc.r_exit_mutex
      have e7 := hc rw_pc.r_uncounted
      have e8 := hc rw_pc.r_last
      have e9 := hc rw_pc.r_leaving
      have e10 := hc rw_pc.writing
      simp at e0 e1 e2 e3 e4 e5 e6 e7 e8 e9 e10
      clear hc hpc hp
      have hb : is_int (s.stock_readcnt - 1) := by
        unfold is_int INT_MIN INT_MAX
        clear i3 i4 i5 i6
        omega
      rw [wrap32_of_is_int hb] at hr
      clear hb
      subst hm hw hr
      unfold rw_inv
      dsimp only
      rw [e0, e1, e2, e3, e4, e5, e7, e8, e9, e10]
      clear e0 e1 e2 e3 e4 e5 e7 e8 e9 e10
      refine ⟨?_, ?_, ?_, ?_, ?_, ?_, ?_⟩ <;> omega
    | r_uncounted =>
      simp only at h
      by_cases hz : s.stock_readcnt = 0
      · simp [hz] at h
        obtain ⟨hm, hw, hr, hpc⟩ := h
        have hc := at_pc_set s ⟨m1, w1, r1, p1⟩ i rw_pc.r_uncounted rw_pc.r_last hp hpc.symm
        have e0 := hc rw_pc.idle
        have e1 := hc rw_pc.r_has_mutex
        have e2 := hc rw_pc.r_counted
        have e3 := hc rw_pc.r_first
        have e4 := hc rw_pc.r_entering
        have e5 := hc rw_pc.reading
        have e6 := hc rw_pc.r_exit_mutex
        have e7 := hc rw_pc.r_uncounted
        have e8 := hc rw_pc.r_last
        have e9 := hc rw_pc.r_leaving
        have e10 := hc rw_pc.writing
        simp at e0 e1 e2 e3 e4 e5 e6 e7 e8 e9 e10
        clear hc hpc hp
        subst hm hw hr
        unfold rw_inv
        dsimp only
        rw [e0, e1, e2, e3, e4, e5, e6, e8, e9, e10]
        clear e0 e1 e2 e3 e4 e5 e6 e8 e9 e10
        refine ⟨?_, ?_, ?_, ?_, ?_, ?_, ?_⟩ <;> omega
      · simp [hz] at h
        obtain ⟨hm, hw, hr, hpc⟩ := h
        have hc := at_pc_set s ⟨m1, w1, r1, p1⟩ i rw_pc.r_uncounted rw_pc.r_leaving hp hpc.symm
        have e0 := hc rw_pc.idle
        have e1 := hc rw_pc.r_has_mutex
        have e2 := hc rw_pc.r_counted
        have e3 := hc rw_pc.r_first
        have e4 := hc rw_pc.r_entering
        have e5 := hc rw_pc.reading
        have e6 := hc rw_pc.r_exit_mutex
        have e7 := hc rw_pc.r_uncounted
        have e8 := hc rw_pc.r_last
        have e9 := hc rw_pc.r_leaving
        have e10 := hc rw_pc.writing
        simp at e0 e1 e2 e3 e4 e5 e6 e7 e8 e9 e10
        clear hc hpc hp
        subst hm hw hr
        unfold rw_inv
        dsimp only
        rw [e0, e1, e2, e3, e4, e5, e6, e8, e9, e10]
        clear e0 e1 e2 e3 e4 e5 e6 e8 e9 e10
        refine ⟨?_, ?_, ?_, ?_, ?_, ?_, ?_⟩ <;> omega
    | r_last =>
      simp only [Option.some.injEq, task2.V, rw_state.mk.injEq] at h
      obtain ⟨hm, hw, hr, hpc⟩ := h
      have hc := at_pc_set s ⟨m1, w1, r1, p1⟩ i rw_pc.r_last rw_pc.r_leaving hp hpc.symm
      have e0 := hc rw_pc.idle
      have e1 := hc rw_pc.r_has_mutex
      have e2 := hc rw_pc.r_counted
      have e3 := hc rw_pc.r_first
      have e4 := hc rw_pc.r_entering
      have e5 := hc rw_pc.reading
      have e6 := hc rw_pc.r_exit_mutex
      have e7 := hc rw_pc.r_uncounted
      have e8 := hc rw_pc.r_last
      have e9 := hc rw_pc.r_leaving
      have e10 := hc rw_pc.writing
      simp at e0 e1 e2 e3 e4 e5 e6 e7 e8 e9 e10
      clear hc hpc hp
      subst hm hw hr
      unfold rw_inv
      dsimp only
      rw [e0, e1, e2, e3, e4, e5, e6, e7, e9, e10]
      clear e0 e1 e2 e3 e4 e5 e6 e7 e9 e10
      refine ⟨?_, ?_, ?_, ?_, ?_, ?_, ?_⟩ <;> omega
    | r_leaving =>
      simp only [Option.some.injEq, task2.V, rw_state.mk.injEq] at h
      obtain ⟨hm, hw, hr, hpc⟩ := h
      have hc := at_pc_set s ⟨m1, w1, r1, p1⟩ i rw_pc.r_leaving rw_pc.idle hp hpc.symm
      have e0 := hc rw_pc.idle
      have e1 := hc rw_pc.r_has_mutex
      have e2 := hc rw_pc.r_counted
      have e3 := hc rw_pc.r_first
      have e4 := hc rw_pc.r_entering
      have e5 := hc rw_pc.reading
      have e6 := hc rw_pc.r_exit_mutex
      have e7 := hc rw_pc.r_uncounted
      have e8 := hc rw_pc.r_last
      have e9 := hc rw_pc.r_leaving
      have e10 := hc rw_pc.writing
      simp at e0 e1 e2 e3 e4 e5 e6 e7 e8 e9 e10
      clear hc hpc hp
      subst hm hw hr
      unfold rw_inv
      dsimp only
      rw [e0, e1, e2, e3, e4, e5, e6, e7, e8, e10]
      clear e0 e1 e2 e3 e4 e5 e6 e7 e8 e10
      refine ⟨?_, ?_, ?_, ?_, ?_, ?_, ?_⟩ <;> omega
    | writing =>
      simp only [Option.some.injEq, task2.V, rw_state.mk.injEq] at h
      obtain ⟨hm, hw, hr, hpc⟩ := h
      have hc := at_pc_set s ⟨m1, w1, r1, p1⟩ i rw_pc.writing rw_pc.idle hp hpc.symm
      have e0 := hc rw_pc.idle
      have e1 := hc rw_pc.r_has_mutex
      have e2 := hc rw_pc.r_counted
      have e3 := hc rw_pc.r_first
      have e4 := hc rw_pc.r_entering
      have e5 := hc rw_pc.reading
      have e6 := hc rw_pc.r_exit_mutex
      have e7 := hc rw_pc.r_uncounted
      have e8 := hc rw_pc.r_last
      have e9 := hc rw_pc.r_leaving
      have e10 := hc rw_pc.writing
      simp at e0 e1 e2 e3 e4 e5 e6 e7 e8 e9 e10
      clear hc hpc hp
      subst hm hw hr
      unfold rw_inv
      dsimp only
      rw [e0, e1, e2, e3, e4, e5, e6, e7, e8, e9]
      clear e0 e1 e2 e3 e4 e5 e6 e7 e8 e9
      refine ⟨?_, ?_, ?_, ?_, ?_, ?_, ?_⟩ <;> omega

/-- The initial record satisfies the invariant. -/
theorem rw_init_inv (n : Nat) : rw_inv n (task2.rw_init n) := by
  unfold rw_inv at_pc task2.rw_init
  simp [List.count_replicate]

/-- Every reachable state satisfies the invariant, when the threads are at most
`INT_MAX`. -/
theorem rw_reachable_inv (n : Nat) (hn : n ≤ 2147483647) (s : rw_state)
    (h : task2.rw_reachable n s) : rw_inv n s := by
  induction h with
  | init => exact rw_init_inv n
  | step s s1 i as_writer _ hs ih => exact rw_step_inv n hn s s1 i as_writer ih hs

/-- A thread at a place is counted there. -/
theorem at_pc_pos (s : rw_state) (i : Nat) (a : rw_pc) (h : s.pcs[i]? = some a) :
    1 ≤ at_pc s a := by
  unfold at_pc
  exact List.count_pos_iff.mpr (List.mem_iff_getElem?.mpr ⟨i, h⟩)

/-- Two threads at the same place are both counted there. -/
theorem at_pc_two (s : rw_state) (i j : Nat) (a b : rw_pc) (hab : a ≠ b) (hij : i ≠ j)
    (hi : s.pcs[i]? = some a) (hj : s.pcs[j]? = some a) : 2 ≤ at_pc s a := by
  have h1 := count_set_add s.pcs i a b a hi
  have h2 : (s.pcs.set i b)[j]? = some a := by
    rw [List.getElem?_set_ne hij]
    exact hj
  have h3 : 1 ≤ (s.pcs.set i b).count a := List.count_pos_iff.mpr (List.mem_iff_getElem?.mpr ⟨j, h2⟩)
  simp only [if_true, if_neg hab] at h1
  unfold at_pc
  omega

/-- A schedule run from the initial record ends in a reachable state. -/
theorem rw_run_reachable (n : Nat) (sched : List (Nat × Bool)) (s s1 : rw_state)
    (hs : task2.rw_reachable n s) (h : task2.rw_run s sched = some s1) :
    task2.rw_reachable n s1 := by
  induction sched generalizing s with
  | nil =>
    simp only [task2.rw_run, Option.some.injEq] at h
    exact h ▸ hs
  | cons x rest ih =>
    obtain ⟨i, w⟩ := x
    simp only [task2.rw_run] at h
    cases hx : task2.rw_step s i w with
    | none => rw [hx] at h; simp at h
    | some s2 =>
      rw [hx] at h
      exact ih s2 (task2.rw_reachable.step s s2 i w hs hx) h

/-- The steps of one thread alone through the entry of a reader are the
function `reader_enter`. -/
theorem rw_run_reader_enter (item item1 : STOCK_ITEM)
    (h : task2.reader_enter item = some item1) :
    ∃ k, task2.rw_run ⟨item.mutex, item.writer, item.stock_readcnt, [rw_pc.idle]⟩
        (List.replicate k (0, false))
      = some ⟨item1.mutex, item1.writer, item1.stock_readcnt, [rw_pc.reading]⟩ := by
  unfold task2.reader_enter task2.P at h
  by_cases hm : item.mutex = 0
  · simp [hm] at h
  · by_cases hc : wrap32 (item.stock_readcnt + 1) = 1
    · by_cases hw : item.writer = 0
      · simp [hm, hc, hw] at h
      · simp [hm, hc, hw] at h
        subst h
        refine ⟨5, ?_⟩
        simp [task2.rw_run, task2.rw_step, task2.P, task2.V, hm, hc, hw]
    · simp [hm, hc] at h
      subst h
      refine ⟨4, ?_⟩
      simp [task2.rw_run, task2.rw_step, task2.P, task2.V, hm, hc]

/-- The steps of one thread alone through the exit of a reader are the
function `reader_exit`. -/
theorem rw_run_reader_exit (item item1 : STOCK_ITEM)
    (h : task2.reader_exit item = some item1) :
    ∃ k, task2.rw_run ⟨item.mutex, item.writer, item.stock_readcnt, [rw_pc.reading]⟩
        (List.replicate k (0, false))
      = some ⟨item1.mutex, item1.writer, item1.stock_readcnt, [rw_pc.idle]⟩ := by
  unfold task2.reader_exit task2.P at h
  by_cases hm : item.mutex = 0
  · simp [hm] at h
  · by_cases hc : wrap32 (item.stock_readcnt - 1) = 0
    · simp [hm, hc] at h
      subst h
      refine ⟨5, ?_⟩
      simp [task2.rw_run, task2.rw_step, task2.P, task2.V, hm, hc]
    · simp [hm, hc] at h
      subst h
      refine ⟨4, ?_⟩
      simp [task2.rw_run, task2.rw_step, task2.P, task2.V, hm, hc]

/-! ### The round trip of the snapshot file -/

/-- An index that is adjacent-ordered by `less`, with ids whose differences
are `int`s, is ordered by `less` between every two places. -/
theorem pairwise_rows_of_near (t : stock_link)
    (hnear : ∀ a ∈ ids t, ∀ b ∈ ids t, is_int (a - b))
    (hc : List.Chain' le_by_less (rows t)) :
    List.Pairwise (fun a b => less a b ≤ 0) (rows t) := by
  have h1 : List.Chain' (fun a b : Int => wrap32 (a - b) ≤ 0) (ids t) :=
    (chain_rows_iff_ids t).mp hc
  have h2 : List.Chain' (fun a b : Int => a ≤ b) (ids t) := by
    rw [List.Chain'.iff_mem] at h1
    refine h1.imp ?_
    rintro a b ⟨ha, hb, hab⟩
    rw [wrap32_of_is_int (hnear a ha b hb)] at hab
    omega
  have h3 : List.Pairwise (fun a b : Int => a ≤ b) (ids t) := List.chain'_iff_pairwise.mp h2
  rw [ids_eq_map_rows, List.pairwise_map] at h3
  refine List.Pairwise.imp_of_mem ?_ h3
  intro a b ha hb hab
  have hia : a.stock_id ∈ ids t := by rw [ids_eq_map_rows]; exact List.mem_map_of_mem _ ha
  have hib : b.stock_id ∈ ids t := by rw [ids_eq_map_rows]; exact List.mem_map_of_mem _ hb
  unfold less
  rw [wrap32_of_is_int (hnear _ hia _ hib)]
  omega

/-- Where the differences of the ids are `int`s, so that `less` orders them as
integers, the round trip holds: a ledger that `load_stock_to_memory` built and
that any sequence of buys and sells then changed is written by `update_file`
as a text from which `load_stock_to_memory`, started on the initial globals
with enough fuel, rebuilds exactly the same tree. -/
theorem save_then_load_round_trip (fuel : Nat) (vars : stock_row) (fp : List Char)
    (g : globals) (cmds : List ledger_cmd) (fuel1 : Nat) (vars1 : stock_row)
    (hv : row_is_int vars)
    (hload : load_stock_to_memory fuel initial_globals vars fp = some g)
    (hnear : ∀ a ∈ ids g.root, ∀ b ∈ ids g.root, is_int (a - b))
    (hfuel : g.total_stock_num < fuel1) :
    load_stock_to_memory fuel1 initial_globals vars1
        (task1.update_file (task1.run_ledger g.root cmds))
      = some { total_stock_num := g.total_stock_num, stock_list := [],
               root := task1.run_ledger g.root cmds } := by
  obtain ⟨arr, hg, hint, hchain⟩ := load_result hload hv
  subst hg
  simp only at hfuel hnear ⊢
  obtain ⟨hshape, hids, hfi, hq⟩ := task1.run_ledger_keeps cmds
    (stock_arr_to_bst arr 0 ((arr.length : Int) - 1))
  have hq1 := hq (quiescent_stock_arr_to_bst _ _ _)
  have hfi1 := hfi (by
    rw [fields_are_int_iff, items_stock_arr_to_bst_all]
    intro it hit
    obtain ⟨r, hr, rfl⟩ := List.mem_map.mp hit
    exact hint r hr)
  have hrebuild := rebuild_eq _ arr hq1 hshape
  have hids1 := (chain_rows_iff_ids (stock_arr_to_bst arr 0 ((arr.length : Int) - 1)))
  rw [rows_stock_arr_to_bst_all, ← hids] at hids1
  rw [← hids] at hnear
  generalize task1.run_ledger (stock_arr_to_bst arr 0 ((arr.length : Int) - 1)) cmds = root1
    at hshape hq1 hfi1 hrebuild hids1 hnear ⊢
  have hlen : (items root1).length = arr.length := by
    rw [← length_items_shape, hshape, length_items_shape, items_stock_arr_to_bst_all,
      List.length_map]
  have hchain1 : List.Chain' le_by_less (rows root1) := by
    rw [chain_rows_iff_ids]
    exact hids1.mp hchain
  have hpair := pairwise_rows_of_near root1 hnear hchain1
  have hrl : (rows root1).length = arr.length := by
    unfold rows; rw [List.length_map, hlen]
  unfold load_stock_to_memory
  rw [task1.update_file_eq,
    load_loop_file _ fuel1 initial_globals vars1 ((fields_are_int_iff _).mp hfi1)
      (by rw [hlen]; exact hfuel)]
  simp only [stock_list_to_bst, initial_globals, Nat.zero_add, List.nil_append,
    List.length_map, le_refl, if_true, hlen]
  have htake : List.take arr.length (List.map row_of (items root1)) = rows root1 := by
    rw [← hrl]; exact List.take_length _
  rw [htake, qsort_of_pairwise less _ hpair]
  rw [hrl] at hrebuild
  rw [hrebuild]

/-! ## Claims -/

/-- C1, as stated, fails: on a record holding `INT_MAX`, one `sell` of 1 is
answered with success and leaves `INT_MIN`, not the initial quantity plus the
sold amount. -/
theorem C1_counterexample :
    quantity (single_ledger 1 2147483647 100) 1 = some 2147483647
      ∧ (task1.run_cmds (single_ledger 1 2147483647 100) 1 [record_cmd.sell 1]).1
          = [MSG_SELL_SUCCESS]
      ∧ quantity (task1.run_cmds (single_ledger 1 2147483647 100) 1 [record_cmd.sell 1]).2 1
          = some (-2147483648)
      ∧ quantity (task1.run_cmds (single_ledger 1 2147483647 100) 1 [record_cmd.sell 1]).2 1
          ≠ some (2147483647 + sold_total [record_cmd.sell 1]
              - bought_total [record_cmd.sell 1]
                (task1.run_cmds (single_ledger 1 2147483647 100) 1 [record_cmd.sell 1]).1) := by
  decide

/-- C1, amended: after any sequence of buys and sells on a record the search
reaches, the quantity is the initial quantity plus the sold amounts minus the
amounts of the buys answered with success, reduced to 32 bits; it is that
value itself whenever the value is an `int`; a buy is answered with success
exactly when the quantity just before it is at least its amount; and the
worker-pool commands, run by one thread on a quiescent tree, do the same. -/
theorem C1_quantity_accounting (root : stock_link) (stock_id q0 : Int)
    (cmds : List record_cmd) (h : quantity root stock_id = some q0) (hq0 : is_int q0) :
    quantity (task1.run_cmds root stock_id cmds).2 stock_id
        = some (wrap32 (q0 + sold_total cmds
            - bought_total cmds (task1.run_cmds root stock_id cmds).1))
      ∧ (is_int (q0 + sold_total cmds
            - bought_total cmds (task1.run_cmds root stock_id cmds).1) →
          quantity (task1.run_cmds root stock_id cmds).2 stock_id
            = some (q0 + sold_total cmds
                - bought_total cmds (task1.run_cmds root stock_id cmds).1))
      ∧ (∀ (pre post : List record_cmd) (n : Int), cmds = pre ++ record_cmd.buy n :: post →
          ((task1.run_cmds root stock_id cmds).1[pre.length]? = some MSG_BUY_SUCCESS ↔
            ∃ q, quantity (task1.run_cmds root stock_id pre).2 stock_id = some q ∧ q ≥ n))
      ∧ (Quiescent root →
          task2.run_cmds root stock_id cmds = some (task1.run_cmds root stock_id cmds)) := by
  have main := task1.run_cmds_quantity stock_id cmds root q0 h hq0
  refine ⟨main, ?_, ?_, ?_⟩
  · intro hi
    rw [main, wrap32_of_is_int hi]
  · intro pre post n hc
    subst hc
    obtain ⟨q, hq⟩ := task1.run_cmds_quantity_some stock_id pre root q0 h
    rw [task1.run_cmds_append]
    have hlen := task1.run_cmds_length stock_id pre root
    rw [List.getElem?_append_right (by omega), hlen, Nat.sub_self]
    obtain ⟨a, _, _⟩ := task1.buy_quantity n hq
    simp only [task1.run_cmds, task1.apply_cmd, List.getElem?_cons_zero, a, hq,
      Option.some.injEq]
    by_cases h3 : q ≥ n
    · simp [h3]
    · simp only [h3, if_false, msg_not_enough_ne_success, false_iff]
      rintro ⟨q1, hq1, hge⟩
      exact h3 (hq1 ▸ hge)
  · intro hqz
    exact task2.run_cmds_eq_task1 stock_id cmds root hqz

/-- Witness of C1: on the ledger `1 10 100`, `2 5 50`, the sequence buy 3,
sell 4, buy 100 on record 1 leaves 10 + 4 - 3 = 11. -/
theorem C1_quantity_accounting_witness :
    quantity (two_ledger 10) 1 = some 10 ∧ is_int 10
      ∧ quantity (task1.run_cmds (two_ledger 10) 1
          [record_cmd.buy 3, record_cmd.sell 4, record_cmd.buy 100]).2 1 = some 11 :=
  ⟨by decide, by decide,
    (C1_quantity_accounting (two_ledger 10) 1 10
      [record_cmd.buy 3, record_cmd.sell 4, record_cmd.buy 100]
      (by decide) (by decide)).1.trans (by decide)⟩

/-- C2, as stated, fails: on a record holding `INT_MAX`, `buy` of the amount
-1 passes the check, is answered with success, and leaves `INT_MIN`, not
`q - n`. -/
theorem C2_counterexample :
    quantity (single_ledger 1 2147483647 100) 1 = some 2147483647
      ∧ (2147483647 : Int) ≥ -1
      ∧ (task1.buy (single_ledger 1 2147483647 100) 1 (-1)).1 = MSG_BUY_SUCCESS
      ∧ quantity (task1.buy (single_ledger 1 2147483647 100) 1 (-1)).2 1
          = some (-2147483648)
      ∧ quantity (task1.buy (single_ledger 1 2147483647 100) 1 (-1)).2 1
          ≠ some (2147483647 - (-1)) := by
  decide

/-- C2, amended: for a record the search reaches with quantity `q`, if
`q >= n` then `buy` answers with the success line and the quantity becomes
`q - n` reduced to 32 bits, which is `q - n` whenever `q - n <= INT_MAX`;
otherwise `buy` answers `Not enough left stocks` and the tree is unchanged;
and the worker-pool `buy`, run alone on a quiescent tree, does the same. -/
theorem C2_buy_check_then_decrement (root : stock_link) (stock_id q n : Int)
    (h : quantity root stock_id = some q) :
    (q ≥ n →
        (task1.buy root stock_id n).1 = MSG_BUY_SUCCESS
          ∧ quantity (task1.buy root stock_id n).2 stock_id = some (wrap32 (q - n))
          ∧ (q - n ≤ INT_MAX →
              quantity (task1.buy root stock_id n).2 stock_id = some (q - n)))
      ∧ (¬ q ≥ n → task1.buy root stock_id n = (MSG_NOT_ENOUGH, root))
      ∧ (Quiescent root → task2.buy root stock_id n = some (task1.buy root stock_id n)) := by
  obtain ⟨a, b, c⟩ := task1.buy_quantity n h
  refine ⟨?_, ?_, ?_⟩
  · intro hge
    simp only [hge, if_true] at a b
    refine ⟨a, b, ?_⟩
    intro hle
    rw [b, wrap32_of_is_int]
    unfold is_int INT_MIN
    exact ⟨by omega, hle⟩
  · intro hlt
    simp only [hlt, if_false] at a
    exact Prod.ext a (c hlt)
  · intro hqz
    exact task2.buy_eq_task1 stock_id n hqz

/-- Witness of C2: with quantity 7, `buy 1 100` is refused and leaves 7. -/
theorem C2_buy_check_then_decrement_witness :
    quantity (two_ledger 7) 1 = some 7
      ∧ task1.buy (two_ledger 7) 1 100 = (MSG_NOT_ENOUGH, two_ledger 7)
      ∧ quantity (task1.buy (two_ledger 7) 1 100).2 1 = some 7 :=
  ⟨by decide,
    (C2_buy_check_then_decrement (two_ledger 7) 1 7 100 (by decide)).2.1 (by decide),
    by decide⟩

/-- C3, as stated, fails: on a record holding 0, `buy` of the amount `INT_MIN`
passes the check and stores `INT_MIN`, a negative quantity. -/
theorem C3_counterexample :
    quantity (single_ledger 1 0 100) 1 = some 0
      ∧ is_int (-2147483648)
      ∧ (task1.buy (single_ledger 1 0 100) 1 (-2147483648)).1 = MSG_BUY_SUCCESS
      ∧ quantity (task1.buy (single_ledger 1 0 100) 1 (-2147483648)).2 1
          = some (-2147483648)
      ∧ ¬ (∃ q, quantity (task1.buy (single_ledger 1 0 100) 1 (-2147483648)).2 1 = some q
            ∧ 0 ≤ q) := by
  decide

/-- C3, amended: for a record the search reaches whose quantity `q` is a
non-negative `int`, and an amount `n` that is non-negative or has
`q - n <= INT_MAX`, the quantity stored after `buy` is non-negative, in both
variants. -/
theorem C3_buy_keeps_nonnegative (root : stock_link) (stock_id q n : Int)
    (h : quantity root stock_id = some q) (hq : 0 ≤ q) (hint : is_int q)
    (hn : 0 ≤ n ∨ q - n ≤ INT_MAX) :
    (∃ q1, quantity (task1.buy root stock_id n).2 stock_id = some q1 ∧ 0 ≤ q1)
      ∧ (Quiescent root →
          ∃ res, task2.buy root stock_id n = some res
            ∧ ∃ q1, quantity res.2 stock_id = some q1 ∧ 0 ≤ q1) := by
  have key : ∃ q1, quantity (task1.buy root stock_id n).2 stock_id = some q1 ∧ 0 ≤ q1 := by
    obtain ⟨_, b, _⟩ := task1.buy_quantity n h
    by_cases h3 : q ≥ n
    · simp only [h3, if_true] at b
      refine ⟨_, b, ?_⟩
      unfold is_int INT_MIN INT_MAX at hint
      unfold INT_MAX at hn
      unfold wrap32
      omega
    · simp only [h3, if_false] at b
      exact ⟨q, b, hq⟩
  refine ⟨key, ?_⟩
  intro hqz
  exact ⟨_, task2.buy_eq_task1 stock_id n hqz, key⟩

/-- Witness of C3: with quantity 7, `buy 1 3` leaves 4. -/
theorem C3_buy_keeps_nonnegative_witness :
    quantity (two_ledger 7) 1 = some 7 ∧ (0 : Int) ≤ 7 ∧ is_int 7
      ∧ ((0 : Int) ≤ 3 ∨ (7 : Int) - 3 ≤ INT_MAX)
      ∧ ∃ q1, quantity (task1.buy (two_ledger 7) 1 3).2 1 = some q1 ∧ 0 ≤ q1 :=
  ⟨by decide, by decide, by decide, by decide,
    (C3_buy_keeps_nonnegative (two_ledger 7) 1 7 3 (by decide) (by decide) (by decide)
      (by decide)).1⟩

/-- C4, as stated, fails: on a record holding 1, `sell` of the amount
`INT_MAX` is answered with success and leaves `INT_MIN`, not `1 + INT_MAX`. -/
theorem C4_counterexample :
    quantity (single_ledger 1 1 100) 1 = some 1
      ∧ (task1.sell (single_ledger 1 1 100) 1 2147483647).1 = MSG_SELL_SUCCESS
      ∧ quantity (task1.sell (single_ledger 1 1 100) 1 2147483647).2 1
          = some (-2147483648)
      ∧ quantity (task1.sell (single_ledger 1 1 100) 1 2147483647).2 1
          ≠ some (1 + 2147483647) := by
  decide

/-- C4, amended: for a record the search reaches with quantity `q` and every
amount `n`, `sell` answers with the success line and nothing else, and the
quantity becomes `q + n` reduced to 32 bits, which is `q + n` whenever that
sum is an `int`; the worker-pool `sell`, run alone on a quiescent tree, does
the same. -/
theorem C4_sell_always_succeeds (root : stock_link) (stock_id q n : Int)
    (h : quantity root stock_id = some q) :
    (task1.sell root stock_id n).1 = MSG_SELL_SUCCESS
      ∧ quantity (task1.sell root stock_id n).2 stock_id = some (wrap32 (q + n))
      ∧ (is_int (q + n) → quantity (task1.sell root stock_id n).2 stock_id = some (q + n))
      ∧ (Quiescent root →
          task2.sell root stock_id n = some (task1.sell root stock_id n)) := by
  obtain ⟨a, b⟩ := task1.sell_quantity n h
  refine ⟨a, b, ?_, ?_⟩
  · intro hi
    rw [b, wrap32_of_is_int hi]
  · intro hqz
    exact task2.sell_eq_task1 stock_id n hqz

/-- Witness of C4: with quantity 7, `sell 1 0` succeeds and leaves 7. -/
theorem C4_sell_always_succeeds_witness :
    quantity (two_ledger 7) 1 = some 7
      ∧ (task1.sell (two_ledger 7) 1 0).1 = MSG_SELL_SUCCESS
      ∧ quantity (task1.sell (two_ledger 7) 1 0).2 1 = some (wrap32 (7 + 0)) :=
  ⟨by decide,
    (C4_sell_always_succeeds (two_ledger 7) 1 7 0 (by decide)).1,
    (C4_sell_always_succeeds (two_ledger 7) 1 7 0 (by decide)).2.1⟩

/-- C5 fails on the code: for the two distinct ids `INT_MAX` and -2, in
either file order, `less` overflows, the array is left with `INT_MAX` first,
and the in-order traversal visits `INT_MAX` before -2: the ids are not
ascending. -/
theorem C5_far_apart_ids_not_ascending :
    (load_stock_to_memory 3 initial_globals ⟨0, 0, 0⟩ "2147483647 1 1\n-2 1 1\n".toList).map
        (fun g => ids g.root) = some [2147483647, -2]
      ∧ (load_stock_to_memory 3 initial_globals ⟨0, 0, 0⟩
          "-2 1 1\n2147483647 1 1\n".toList).map (fun g => ids g.root)
        = some [2147483647, -2]
      ∧ less ⟨2147483647, 1, 1⟩ ⟨-2, 1, 1⟩ = -2147483647
      ∧ ¬ List.Sorted (fun a b : Int => a < b) [2147483647, -2]
      ∧ task1.show_ 8192 (stock_link.ptr (new_item 2147483647 1 1) stock_link.NULL
          (single_ledger (-2) 1 1)) = some "2147483647 1 1\t-2 1 1\t\n".toList := by
  decide

/-- C6, as stated, fails: `show` builds its line in the buffer `stocks` of
`MAXLINE` bytes. For the ledger of the 1366 records `i 0 0` the line needs at
least 8197 bytes, and with `MAXLINE = 8192` a `strcat` runs past the end of
the buffer: no defined line is written. Whatever the size of the buffer, the
ledger with that many records overruns it. The ids of these ledgers ascend. -/
theorem C6_counterexample :
    task1.show_ 8192 (stock_arr_to_bst (zero_rows 1366) 0 1365) = none
      ∧ task1.show_ 8192 (stock_arr_to_bst (zero_rows 1366) 0 1365)
          ≠ some (show_text (stock_arr_to_bst (zero_rows 1366) 0 1365) ++ ['\n'])
      ∧ List.Sorted (fun a b : Int => a < b)
          (ids (stock_arr_to_bst (zero_rows 1366) 0 1365))
      ∧ ∀ MAXLINE : Nat,
          task1.show_ MAXLINE
            (stock_arr_to_bst (zero_rows MAXLINE) 0 ((MAXLINE : Int) - 1)) = none := by
  have h := task1.show_overflows 1366 8192 (by decide)
  have e : ((1366 : Nat) : Int) - 1 = 1365 := by decide
  rw [e] at h
  have hs := zero_rows_ids_sorted 1366
  rw [e] at hs
  refine ⟨h, ?_, hs, ?_⟩
  · rw [h]; simp
  · intro MAXLINE
    exact task1.show_overflows MAXLINE MAXLINE (by omega)

/-- C6, amended: for every ledger whose in-order ids ascend and whose line,
with its newline and terminator, fits the `MAXLINE` bytes of the buffer, the
bytes `show` writes are the concatenation, over the records sorted by
ascending id, of `<id> <quantity> <price>` and a tab, followed by one newline;
the worker-pool `show`, run alone on a quiescent tree, writes the same and
leaves the tree as it was. For the ledger loaded from the snapshot of records
`1 10 100` and `2 5 50`, after `buy 1 3` the response to `show` is
`1 7 100`, tab, `2 5 50`, tab, newline. -/
theorem C6_show_writes_triples (MAXLINE : Nat) (root : stock_link)
    (hord : List.Sorted (fun a b : Int => a < b) (ids root))
    (hfit : (show_text root).length + 2 ≤ MAXLINE) :
    task1.show_ MAXLINE root
        = some ((List.insertionSort (fun a b : STOCK_ITEM => a.stock_id ≤ b.stock_id)
            (items root)).flatMap sprintf_item ++ ['\n'])
      ∧ (Quiescent root →
          task2.show_ MAXLINE root
            = some ((List.insertionSort (fun a b : STOCK_ITEM => a.stock_id ≤ b.stock_id)
                (items root)).flatMap sprintf_item ++ ['\n'], root))
      ∧ (∀ item : STOCK_ITEM,
          sprintf_item item
            = print_d item.stock_id ++ [' '] ++ print_d item.left_stock ++ [' ']
                ++ print_d item.stock_price ++ ['\t'])
      ∧ (load_stock_to_memory 3 initial_globals ⟨0, 0, 0⟩ "1 10 100\n2 5 50\n".toList
            = some ⟨2, [], two_ledger 10⟩
          ∧ task1.execute_command 8192 ⟨[], 0, 0⟩ (two_ledger 10) "buy 1 3\n".toList
            = some (MSG_BUY_SUCCESS, two_ledger 7)
          ∧ task1.execute_command 8192 ⟨[], 0, 0⟩ (two_ledger 7) "show\n".toList
            = some ("1 7 100\t2 5 50\t\n".toList, two_ledger 7)
          ∧ task2.execute_command 8192 ⟨[], 0, 0⟩ (two_ledger 7) "show\n".toList
            = some ("1 7 100\t2 5 50\t\n".toList, two_ledger 7)) := by
  have hsort := (items_sorted_of_ids hord).insertionSort_eq
  have h1 : task1.show_ MAXLINE root = some (show_text root ++ ['\n']) := by
    rw [task1.show_eq, if_pos hfit]
  refine ⟨?_, ?_, ?_, by decide⟩
  · rw [hsort]; exact h1
  · intro hq
    rw [task2.show_eq_task1 MAXLINE root hq, h1, hsort]
    rfl
  · intro item
    simp [sprintf_item]

/-- Witness of C6: the ledger `1 7 100`, `2 5 50` with a buffer of 8192
bytes. -/
theorem C6_show_writes_triples_witness :
    List.Sorted (fun a b : Int => a < b) (ids (two_ledger 7))
      ∧ (show_text (two_ledger 7)).length + 2 ≤ 8192
      ∧ task1.show_ 8192 (two_ledger 7) = some "1 7 100\t2 5 50\t\n".toList :=
  ⟨by decide, by decide,
    (C6_show_writes_triples 8192 (two_ledger 7) (by decide) (by decide)).1.trans
      (by decide)⟩

/-- C7 fails on the code: the comparator `less` returns the `int` difference
of the ids, which has the wrong sign for ids more than `INT_MAX` apart, so
`qsort` is not handed an order. The snapshot of six records below is loaded
as a ledger whose in-order ids are 500000000, 2000000000, -2000000000,
-1500000000, -1000000000, -500000000; `update_file` writes them in that
order; and `load_stock_to_memory` on that text builds a ledger whose in-order
ids are -1500000000, -1000000000, -500000000, 500000000, 2000000000,
-2000000000: another sequence of triples. -/
theorem C7_far_apart_ids_reload_differs :
    (load_stock_to_memory 7 initial_globals ⟨0, 0, 0⟩
        ("-2000000000 1 10\n-1500000000 2 20\n-1000000000 3 30\n".toList
          ++ "500000000 4 40\n2000000000 5 50\n-500000000 6 60\n".toList)).map
        (fun g => rows g.root)
      = some [⟨500000000, 4, 40⟩, ⟨2000000000, 5, 50⟩, ⟨-2000000000, 1, 10⟩,
          ⟨-1500000000, 2, 20⟩, ⟨-1000000000, 3, 30⟩, ⟨-500000000, 6, 60⟩]
      ∧ (load_stock_to_memory 7 initial_globals ⟨0, 0, 0⟩
          ("-2000000000 1 10\n-1500000000 2 20\n-1000000000 3 30\n".toList
            ++ "500000000 4 40\n2000000000 5 50\n-500000000 6 60\n".toList)).map
          (fun g => task1.update_file g.root)
        = some ("500000000 4 40\n2000000000 5 50\n-2000000000 1 10\n".toList
            ++ "-1500000000 2 20\n-1000000000 3 30\n-500000000 6 60\n".toList)
      ∧ (load_stock_to_memory 7 initial_globals ⟨0, 0, 0⟩
          ("500000000 4 40\n2000000000 5 50\n-2000000000 1 10\n".toList
            ++ "-1500000000 2 20\n-1000000000 3 30\n-500000000 6 60\n".toList)).map
          (fun g => rows g.root)
        = some [⟨-1500000000, 2, 20⟩, ⟨-1000000000, 3, 30⟩, ⟨-500000000, 6, 60⟩,
            ⟨500000000, 4, 40⟩, ⟨2000000000, 5, 50⟩, ⟨-2000000000, 1, 10⟩] := by
  refine ⟨?_, ?_, ?_⟩ <;> decide

/-- C8 fails on the code: in the ledger loaded from the records with ids
`INT_MAX` and -2, the id -2 is loaded, yet the search of `buy` and of `sell`
turns left at the root and ends on a null pointer, so both answer
`stock_id not exists`. -/
theorem C8_loaded_id_not_found :
    load_stock_to_memory 3 initial_globals ⟨0, 0, 0⟩ "2147483647 1 1\n-2 1 1\n".toList
        = some ⟨2, [], stock_link.ptr (new_item 2147483647 1 1) stock_link.NULL
            (single_ledger (-2) 1 1)⟩
      ∧ (-2 : Int) ∈ ids (stock_link.ptr (new_item 2147483647 1 1) stock_link.NULL
          (single_ledger (-2) 1 1))
      ∧ search (stock_link.ptr (new_item 2147483647 1 1) stock_link.NULL
          (single_ledger (-2) 1 1)) (-2) = none
      ∧ (task1.buy (stock_link.ptr (new_item 2147483647 1 1) stock_link.NULL
          (single_ledger (-2) 1 1)) (-2) 1).1 = MSG_NOT_EXISTS
      ∧ (task1.sell (stock_link.ptr (new_item 2147483647 1 1) stock_link.NULL
          (single_ledger (-2) 1 1)) (-2) 1).1 = MSG_NOT_EXISTS := by
  decide

/-- C9 fails on the code: `execute_command` does not look at what `sscanf`
converted. On `buy abc` it calls `buy` with the indeterminate values of its
uninitialised locals, on `buy 1` with the id 1 and an indeterminate amount;
the answer is one of the lines of `buy`, never `invalid command`, and with
the values 1 and 3 the record 1 of the ledger loses 3. An unknown verb is
answered with `invalid command` and leaves the ledger as it is. -/
theorem C9_malformed_arguments_reach_buy (MAXLINE : Nat) (vars : command_vars)
    (root : stock_link) :
    task1.execute_command MAXLINE vars root "buy abc\n".toList
        = some (task1.buy root vars.stock_id vars.stock_num)
      ∧ task1.execute_command MAXLINE vars root "buy 1\n".toList
        = some (task1.buy root 1 vars.stock_num)
      ∧ (task1.buy root vars.stock_id vars.stock_num).1 ≠ MSG_INVALID
      ∧ (task1.buy root 1 vars.stock_num).1 ≠ MSG_INVALID
      ∧ task1.execute_command 8192 ⟨[], 1, 3⟩ (two_ledger 10) "buy abc\n".toList
        = some (MSG_BUY_SUCCESS, two_ledger 7)
      ∧ task2.execute_command MAXLINE vars root "buy abc\n".toList
        = task2.buy root vars.stock_id vars.stock_num
      ∧ task2.execute_command 8192 ⟨[], 1, 3⟩ (two_ledger 10) "buy abc\n".toList
        = some (MSG_BUY_SUCCESS, two_ledger 7)
      ∧ task1.execute_command MAXLINE vars root "frobnicate 1 1\n".toList
        = some (MSG_INVALID, root)
      ∧ task2.execute_command MAXLINE vars root "frobnicate 1 1\n".toList
        = some (MSG_INVALID, root) :=
  ⟨rfl, rfl, task1.buy_response_ne_invalid _ _ _, task1.buy_response_ne_invalid _ _ _,
    by decide, rfl, by decide, rfl, rfl⟩

/-- C10 fails on the code: the loop of `load_stock_to_memory` stops only on
`res == EOF`. A last line with two integers makes `fscanf` return 2, and the
record 2 5 is added with the price 100 left over from the line before; a
token that is not a number makes `fscanf` return 0 without consuming it, and
the loop never ends, whatever the fuel. No failure is reported. -/
theorem C10_partial_line_is_loaded (vars : stock_row) (fuel : Nat) :
    load_stock_to_memory 3 initial_globals vars "1 10 100\n2 5\n".toList
        = some ⟨2, [], stock_link.ptr (new_item 1 10 100) stock_link.NULL
            (single_ledger 2 5 100)⟩
      ∧ fscanf_d_d_d "\n2 5\n".toList ⟨1, 10, 100⟩ = (2, ⟨2, 5, 100⟩, [])
      ∧ fscanf_d_d_d "abc\n".toList vars = (0, vars, "abc\n".toList)
      ∧ load_stock_to_memory fuel initial_globals vars "abc\n".toList = none := by
  refine ⟨?_, by decide, rfl, ?_⟩
  · have h : load_loop 3 initial_globals vars "1 10 100\n2 5\n".toList
        = some ⟨2, [⟨1, 10, 100⟩, ⟨2, 5, 100⟩], stock_link.NULL⟩ := rfl
    unfold load_stock_to_memory
    rw [h]
    decide
  · unfold load_stock_to_memory
    rw [load_loop_not_a_number]

/-- C11 fails on the code: task1 tests `strncmp(command, "exit", 4)`, task2
tests `strcmp(command, "exit\n")`. On a line that starts with `exit` and is
not `exit` alone, such as `exits` or `exit 1 2`, task1 persists the ledger
and closes the connection without a response, while task2 hands the line to
`execute_command`, answers `invalid command` and keeps the connection open. -/
theorem C11_exit_prefix_differs (MAXLINE : Nat) (vars : command_vars) (root : stock_link) :
    task1.main_line MAXLINE vars root "exits\n".toList
        = some { root := root, closed := true, file := some (task1.update_file root),
                 response := [] }
      ∧ task2.thread_line MAXLINE vars 1 root "exits\n".toList
        = some { root := root, closed := false, file := none, response := MSG_INVALID }
      ∧ task1.main_line 8192 ⟨[], 0, 0⟩ (two_ledger 10) "exit 1 2\n".toList
        = some { root := two_ledger 10, closed := true,
                 file := some "1 10 100\n2 5 50\n".toList, response := [] }
      ∧ task2.thread_line 8192 ⟨[], 0, 0⟩ 1 (two_ledger 10) "exit 1 2\n".toList
        = some { root := two_ledger 10, closed := false, file := none,
                 response := MSG_INVALID } :=
  ⟨rfl, rfl, by decide, by decide⟩

/-- C12: in the worker-pool variant, with at most `INT_MAX` threads running the
reader protocol of `inorder` and `inorder_print` and the writer protocol of
`buy` and `sell` on one record, each `P`, `V`, reader-count update and test
taken as one atomic step from `readcnt = 0` and both semaphores at 1, no
reachable state has one thread inside the writing section while another thread
is inside the writing or the reading section. -/
theorem C12_writer_is_alone (n : Nat) (hn : (n : Int) ≤ INT_MAX) (s : rw_state)
    (hr : task2.rw_reachable n s) (i j : Nat) (hij : i ≠ j)
    (hw : s.pcs[i]? = some rw_pc.writing) :
    s.pcs[j]? ≠ some rw_pc.writing ∧ s.pcs[j]? ≠ some rw_pc.reading := by
  have hn1 : n ≤ 2147483647 := by unfold INT_MAX at hn; omega
  obtain ⟨_, _, _, _, _, i5, i6⟩ := rw_reachable_inv n hn1 s hr
  have h1 := at_pc_pos s i rw_pc.writing hw
  constructor
  · intro hj
    have h2 := at_pc_two s i j rw_pc.writing rw_pc.idle (by decide) hij hw hj
    omega
  · intro hj
    have h2 := at_pc_pos s j rw_pc.reading hj
    omega

/-- C12 at the state of three threads where thread 1 is writing and thread 0
waits for the writer gate as first reader. -/
theorem C12_writer_is_alone_witness :
    ((3 : Nat) : Int) ≤ INT_MAX
    ∧ task2.rw_reachable 3 ⟨0, 0, 1, [rw_pc.r_first, rw_pc.writing, rw_pc.idle]⟩
    ∧ task2.rw_step ⟨0, 0, 1, [rw_pc.r_first, rw_pc.writing, rw_pc.idle]⟩ 0 false = none
    ∧ (⟨0, 0, 1, [rw_pc.r_first, rw_pc.writing, rw_pc.idle]⟩ : rw_state).pcs[0]?
        ≠ some rw_pc.writing
    ∧ (⟨0, 0, 1, [rw_pc.r_first, rw_pc.writing, rw_pc.idle]⟩ : rw_state).pcs[0]?
        ≠ some rw_pc.reading :=
  have hr : task2.rw_reachable 3 ⟨0, 0, 1, [rw_pc.r_first, rw_pc.writing, rw_pc.idle]⟩ :=
    rw_run_reachable 3 [(1, true), (0, false), (0, false), (0, false)] (task2.rw_init 3) _
      task2.rw_reachable.init (by decide)
  ⟨by decide, hr, by decide,
    C12_writer_is_alone 3 (by decide) _ hr 1 0 (by decide) (by decide)⟩

/-- C13, as stated, fails: in a queue of 3 slots, after 2147483647 inserts
each followed by its remove, `rear` holds `INT_MAX`. The next insert starts
with the `slots` count positive; `++rear` gives `INT_MIN`, the subscript
`rear % 3` is -2, outside `buf`, and the call has no defined result. -/
theorem C13_counterexample :
    task2.guarded (task2.sbuf_init 3)
        (insert_remove_pairs 2147483647 7 ++ [sbuf_op.insert 7]) = true
      ∧ task2.sbuf_run (task2.sbuf_init 3)
        (insert_remove_pairs 2147483647 7 ++ [sbuf_op.insert 7]) = none
      ∧ wrap32 (2147483647 + 1) = -2147483648
      ∧ Int.tmod (-2147483648) 3 = -2 := by
  obtain ⟨sp1, inv1, r1, g1, n1⟩ := task2.pairs_run 7 [sbuf_op.insert 7] 3 (by decide)
    2147483647 (task2.sbuf_init ((3 : Nat) : Int)) (task2.sbuf_init_inv 3) (by decide)
  have hrear : sp1.rear = 2147483647 := by rw [r1]; decide
  have hins := task2.sbuf_insert_past_int_max sp1 7 inv1 hrear
  have hslots : 0 < sp1.slots := by
    obtain ⟨_, _, _, _, _, _, hi, hsi, _⟩ := inv1
    simp at hi; omega
  refine ⟨?_, ?_, by decide, by decide⟩
  · have : task2.guarded sp1 [sbuf_op.insert 7] = true := by
      simp [task2.guarded, hins, hslots]
    rw [← this]; exact g1
  · exact n1 (by simp [task2.sbuf_run, hins])

/-- C13, amended: for the queue `sbuf_init` makes of `n >= 1` slots and every
sequence of `sbuf_insert` and `sbuf_remove` calls in which an insert runs only
when the `slots` count is positive and a remove only when the `items` count is
positive, and which holds no more than `INT_MAX` inserts: after every prefix
of the sequence the calls have all returned, `rear - front` is the `items`
count and lies between 0 and `n`, `slots + items = n`, the removes have
returned what a first-in first-out list returns, and the handles inserted are
those returned followed by those still queued. -/
theorem C13_queue_is_fifo (n : Int) (ops : List sbuf_op) (k : Nat) (hn : 1 ≤ n)
    (hins : ((inserted ops).length : Int) ≤ INT_MAX)
    (hg : task2.guarded (task2.sbuf_init n) ops = true) :
    ∃ sp, task2.sbuf_run (task2.sbuf_init n) (ops.take k)
          = some ((fifo_run [] (ops.take k)).1, sp)
      ∧ 0 ≤ sp.rear - sp.front ∧ sp.rear - sp.front = sp.items ∧ (sp.items : Int) ≤ n
      ∧ ((sp.slots + sp.items : Nat) : Int) = n
      ∧ sp.items = (fifo_run [] (ops.take k)).2.length
      ∧ inserted (ops.take k)
          = (fifo_run [] (ops.take k)).1 ++ (fifo_run [] (ops.take k)).2 := by
  obtain ⟨N, hN⟩ : ∃ N : Nat, n = N := ⟨n.toNat, by omega⟩
  subst hN
  have hlen := inserted_take_length ops k
  obtain ⟨sp, e, inv, _, a⟩ := task2.sbuf_run_refines (ops.take k) N [] _
    (task2.sbuf_init_inv N)
    (by show (0 : Int) + _ ≤ INT_MAX; unfold INT_MAX at hins ⊢; omega)
    (task2.guarded_take ops k _ hg)
  obtain ⟨_, _, _, _, _, hd, hi, hsi, _⟩ := inv
  refine ⟨sp, e, by omega, by omega, by omega, by omega, hi, ?_⟩
  simpa using a

/-- Witness of C13: a queue of 2 slots; 5 and 6 go in, 5 comes out, 7 goes in,
6 and 7 come out. -/
theorem C13_queue_is_fifo_witness :
    (1 : Int) ≤ 2
      ∧ task2.guarded (task2.sbuf_init 2)
          [sbuf_op.insert 5, sbuf_op.insert 6, sbuf_op.remove, sbuf_op.insert 7,
            sbuf_op.remove, sbuf_op.remove] = true
      ∧ ∃ sp, task2.sbuf_run (task2.sbuf_init 2)
          [sbuf_op.insert 5, sbuf_op.insert 6, sbuf_op.remove, sbuf_op.insert 7,
            sbuf_op.remove, sbuf_op.remove] = some ([5, 6, 7], sp) :=
  ⟨by decide, by decide,
    (C13_queue_is_fifo 2
      [sbuf_op.insert 5, sbuf_op.insert 6, sbuf_op.remove, sbuf_op.insert 7,
        sbuf_op.remove, sbuf_op.remove] 6 (by decide) (by decide) (by decide)).imp
      (fun _ h => h.1)⟩

end StockServer
